import Mathlib

/-!
Verification development for the tex2svg repository.

Text is modelled as `List Char`.  Each definition is a shallow embedding of
the Python function of the same (snake-cased) name in `src/tex2svg.py` or
`src/CombineTex.py`; external processes (pdflatex) are modelled by abstract
outcome parameters.  `str.splitlines` is modelled with Python's full set of
line-boundary characters (`\n`, `\r`, `\r\n`, `\v`, `\f`, `\x1c`-`\x1e`,
`\x85`, U+2028, U+2029).
-/

/-- The characters Python's `str.strip` / `str.rstrip` / `\s` treat as
whitespace (ASCII range). -/
def pyIsSpace (c : Char) : Bool :=
  c = ' ' || c = '\t' || c = '\n' || c = '\r' || c = '\x0b' || c = '\x0c'

/-- Convert a Lean string literal to the `List Char` representation. -/
def chars (s : String) : List Char := s.data

/-- Python `str.rstrip()`: drop trailing whitespace. -/
def pyRstrip (l : List Char) : List Char :=
  (l.reverse.dropWhile pyIsSpace).reverse

/-- Python `str.lstrip()`: drop leading whitespace. -/
def pyLstrip (l : List Char) : List Char :=
  l.dropWhile pyIsSpace

/-- Python `str.strip()`. -/
def pyStrip (l : List Char) : List Char :=
  pyRstrip (pyLstrip l)

/-- Python `\w` for ASCII text: letters, digits and underscore. -/
def isWordChar (c : Char) : Bool :=
  c.isAlphanum || c = '_'

/-- Decimal digits of a positive number, most significant first, computed with
structural fuel so that concrete instances evaluate inside the kernel. -/
def natCharsAux : Nat → Nat → List Char
  | _, 0 => []
  | 0, _ => []
  | fuel + 1, n + 1 =>
    natCharsAux fuel ((n + 1) / 10) ++ [Nat.digitChar ((n + 1) % 10)]

/-- Decimal digit characters of a natural number, most significant first;
`str(n)` in Python. -/
def natChars (n : Nat) : List Char :=
  if n = 0 then ['0'] else natCharsAux n n

/-- `f"{idx:0{width}d}"` for a natural number: left-pad the decimal digits
with zeros to `width`. -/
def zeroPad (width : Nat) (n : Nat) : List Char :=
  List.replicate (width - (natChars n).length) '0' ++ natChars n

/-- Worker for `collapseWs`; the flag records whether the scanner is inside a
whitespace run whose single replacement underscore was already emitted. -/
def collapseWsAux : Bool → List Char → List Char
  | _, [] => []
  | inRun, c :: rest =>
    if pyIsSpace c then
      if inRun then collapseWsAux true rest
      else '_' :: collapseWsAux true rest
    else c :: collapseWsAux false rest

/-- One `re.sub(r'\s+', '_', t)` pass: each maximal run of whitespace becomes a
single underscore. -/
def collapseWs (l : List Char) : List Char :=
  collapseWsAux false l

/-- One `re.sub(r'[^\w\.\-]', '_', t)` pass: every character that is not a word
character, a dot or a hyphen becomes an underscore. -/
def replaceNonWord (l : List Char) : List Char :=
  l.map fun c => if isWordChar c || c = '.' || c = '-' then c else '_'

/-- The two substitution passes of `_clean_tag_for_filename` applied to an
already paren-stripped string. -/
def tagSubs (l : List Char) : List Char :=
  replaceNonWord (collapseWs l)

/-- The `strip` / paren-strip stage of `_clean_tag_for_filename` (lines
31-33): strip surrounding whitespace, then, when the result starts with `(`
and ends with `)`, drop that one pair and strip the whitespace just inside. -/
def tagAfterParenStrip (r : List Char) : List Char :=
  let t0 := pyStrip r
  if t0.head? = some '(' && t0.getLast? = some ')' then
    pyStrip (t0.drop 1).dropLast
  else t0

/-- `_clean_tag_for_filename` from `src/tex2svg.py` (lines 28-38). -/
def cleanTagForFilename (raw : Option (List Char)) : List Char :=
  match raw with
  | none => chars "unnumbered"
  | some r =>
    if r = [] then chars "unnumbered"
    else
      let t2 := tagSubs (tagAfterParenStrip r)
      if t2 = [] then chars "unnumbered" else t2

/-- `make_filename_with_tag` from `src/tex2svg.py` (lines 40-43), with the
default width 3 and the default "Eq" file stem. -/
def makeFilenameWithTag (idx : Nat) (displayName : Option (List Char)) : List Char :=
  chars "Eq_" ++ zeroPad 3 idx ++ chars "_(" ++ cleanTagForFilename displayName ++ chars ").tex"

example : cleanTagForFilename (some (chars "(5)")) = chars "5" := by decide
example : cleanTagForFilename (some (chars "1.2")) = chars "1.2" := by decide
example : cleanTagForFilename (some (chars "a  b")) = chars "a_b" := by decide
example : cleanTagForFilename none = chars "unnumbered" := by decide
example : cleanTagForFilename (some (chars " ( ) ")) = chars "unnumbered" := by decide
example : makeFilenameWithTag 7 none = chars "Eq_007_(unnumbered).tex" := by decide

/-!
## Comment stripping (`_strip_comments_by_line`, tex2svg.py lines 427-467)

The Python loop repeatedly calls `line.find('%', i)` and counts the consecutive
backslashes immediately before the found position; an even count marks the
comment start, an odd count means the percent is escaped and the search
resumes one character later.  `findUnescapedPercent` performs the identical
scan in one left-to-right pass: `run` is the number of consecutive backslashes
immediately before the current position.  The returned number is the offset of
the first unescaped percent. -/
def findUnescapedPercent : List Char → Nat → Option Nat
  | [], _ => none
  | c :: rest, run =>
    if c = '%' then
      if run % 2 = 0 then some 0
      else (findUnescapedPercent rest 0).map (· + 1)
    else if c = '\\' then (findUnescapedPercent rest (run + 1)).map (· + 1)
    else (findUnescapedPercent rest 0).map (· + 1)

/-- The number of consecutive backslashes immediately before position `p`,
the quantity the Python code computes with its backward `while` loop. -/
def bsRunBefore (l : List Char) (p : Nat) : Nat :=
  ((l.take p).reverse.takeWhile (· = '\\')).length

/-- The loop body of `_strip_comments_by_line` for one `splitlines(keepends)`
line: cut at the first unescaped `%`; a line whose prefix before the cut is
pure whitespace disappears entirely (newline included), otherwise the prefix
is kept right-stripped with the newline preserved. -/
def stripLine (line : List Char) : List Char :=
  match findUnescapedPercent line 0 with
  | none => line
  | some p =>
    let pre := line.take p
    if pre.all pyIsSpace then []
    else pyRstrip pre ++ (if line.getLast? = some '\n' then ['\n'] else [])

/-- The characters Python's `str.splitlines` treats as line boundaries
(`\n`, `\r`, `\v`, `\f`, `\x1c`, `\x1d`, `\x1e`, `\x85`, U+2028, U+2029;
`"\r\n"` counts as a single boundary). -/
def pyIsLineBreak (c : Char) : Bool :=
  c = '\n' || c = '\r' || c = '\x0b' || c = '\x0c' ||
    c = '\x1c' || c = '\x1d' || c = '\x1e' || c = '\x85' ||
    c = '\u2028' || c = '\u2029'

/-- `str.splitlines(keepends=True)`: each line keeps its terminating
line-break character (the two characters `"\r\n"` form one terminator); a
final unterminated segment forms the last line.  Processing right to left,
the accumulator holds the split of the remaining text, so a `'\r'` whose
successor opened a `['\n']` line merges with it into one `"\r\n"` line. -/
def splitLinesKeep (l : List Char) : List (List Char) :=
  l.foldr
    (fun c acc =>
      if pyIsLineBreak c then
        if c = '\r' then
          match acc with
          | ('\n' :: ln) :: restLines => ('\r' :: '\n' :: ln) :: restLines
          | _ => ['\r'] :: acc
        else [c] :: acc
      else
        match acc with
        | [] => [[c]]
        | ln :: restLines => (c :: ln) :: restLines)
    []

example : splitLinesKeep (chars "a\r\nb") = [chars "a\r\n", chars "b"] := by decide
example : splitLinesKeep (chars "a\rb\x0cc") =
    [chars "a\r", chars "b\x0c", chars "c"] := by decide
example : splitLinesKeep (chars "a\r\r\nb") =
    [chars "a\r", chars "\r\n", chars "b"] := by decide

/-- `_strip_comments_by_line`: process every line and concatenate. -/
def stripCommentsByLine (text : List Char) : List Char :=
  ((splitLinesKeep text).map stripLine).flatten

example : stripCommentsByLine (chars "a % comment\nb\n") = chars "a\nb\n" := by decide
example : stripCommentsByLine (chars "  % only\nkeep\n") = chars "keep\n" := by decide
example : stripCommentsByLine (chars "x \\% esc % real\n") = chars "x \\% esc\n" := by decide
example : stripCommentsByLine (chars "x \\\\% even\n") = chars "x \\\\\n" := by decide
example : stripCommentsByLine (chars "x %c") = chars "x" := by decide

/-!
## Verbatim preservation (`strip_comments_preserve_verbatim`, lines 470-489)
-/

/-- `VERBATIM_ENVS` from tex2svg.py line 17. -/
def verbatimEnvs : List (List Char) :=
  [chars "verbatim", chars "lstlisting", chars "minted", chars "Verbatim"]

/-- The literal `\begin{e}` token. -/
def beginTok (e : List Char) : List Char :=
  chars "\\begin\x7b" ++ e ++ chars "\x7d"

/-- The literal `\end{e}` token. -/
def endTok (e : List Char) : List Char :=
  chars "\\end\x7b" ++ e ++ chars "\x7d"

/-- Split `l` at the leftmost occurrence of `tok`:
`some (a, b)` with `l = a ++ tok ++ b`, or `none` when `tok` never occurs.
This is the non-greedy `.*?tok` search of the regexes in the source. -/
def splitFirstTok (tok : List Char) : List Char → Option (List Char × List Char)
  | [] => if tok.isPrefixOf [] then some ([], []) else none
  | c :: rest =>
    if tok.isPrefixOf (c :: rest) then some ([], (c :: rest).drop tok.length)
    else (splitFirstTok tok rest).map fun ab => (c :: ab.1, ab.2)

/-- Regex alternation at one position: try each verbatim environment name in
order; an alternative succeeds when its `\begin` token starts here and its
`\end` token occurs later (non-greedy body).  Returns the whole matched block
and the remaining text. -/
def tryVerbMatchAt : List (List Char) → List Char → Option (List Char × List Char)
  | [], _ => none
  | e :: moreEnvs, l =>
    if (beginTok e).isPrefixOf l then
      match splitFirstTok (endTok e) (l.drop (beginTok e).length) with
      | some (mid, after) => some (beginTok e ++ mid ++ endTok e, after)
      | none => tryVerbMatchAt moreEnvs l
    else tryVerbMatchAt moreEnvs l

/-- Leftmost match of the compiled verbatim-block pattern: scan positions left
to right and return `(before, block, after)` for the first position where an
alternative matches. -/
def findVerbMatch : List Char → Option (List Char × List Char × List Char)
  | [] => none
  | c :: rest =>
    match tryVerbMatchAt verbatimEnvs (c :: rest) with
    | some (block, after) => some ([], block, after)
    | none => (findVerbMatch rest).map fun x => (c :: x.1, x.2.1, x.2.2)

/-- The `finditer` loop of `strip_comments_preserve_verbatim`, fueled for
structural recursion (one unit of fuel per matched block; the text shrinks by
at least the block length at every step, so `text.length` units suffice). -/
def stripCommentsPV : Nat → List Char → List Char
  | 0, text => stripCommentsByLine text
  | fuel + 1, text =>
    match findVerbMatch text with
    | none => stripCommentsByLine text
    | some (pre, block, rest) =>
      stripCommentsByLine pre ++ block ++ stripCommentsPV fuel rest

/-- `strip_comments_preserve_verbatim` from tex2svg.py lines 470-489. -/
def stripCommentsPreserveVerbatim (text : List Char) : List Char :=
  stripCommentsPV text.length text

example :
    stripCommentsPreserveVerbatim
      (chars "a %x\n\\begin{verbatim}\nkeep %this\n\\end{verbatim}\nb %y\n") =
      chars "a\n\\begin{verbatim}\nkeep %this\n\\end{verbatim}\nb\n" := by decide
example :
    stripCommentsPreserveVerbatim (chars "no verbatim %gone\n") =
      chars "no verbatim\n" := by decide

/-!
## Input flattening (`expand_inputs` tex2svg.py 361-386, `CombineTex.expand` 92-122)

Files are identified by the resolved absolute path (`resolve_include` output),
modelled as a `Nat` id.  A file's text is a token list: literal chunks and
`\input`/`\include` commands, each include carrying its resolved target and
its original command text (`m.group(0)`, kept in place when the target file
does not exist).  Both expanders return the flattened text, the final visited
set (as the insertion-ordered list the mutable Python `set` accumulates) and
the trace of files whose content was actually spliced, in splice order. -/
inductive FlatTok where
  | lit (s : List Char)
  | incl (target : Nat) (orig : List Char)
deriving DecidableEq

/-- The project's files: resolved id to token list. -/
abbrev FileSys := List (Nat × List FlatTok)

/-- `expand_inputs`: the `re.sub` callback threads the shared `visited` set
left to right; a visited target becomes the empty string, a missing target
keeps the original command, a new target is marked visited and recursively
expanded relative to itself.  The root file's own text is passed directly and
its id is never placed in `visited` by the source.  Fuel is consumed one unit
per step so the definition is structural. -/
def expandToks (fs : FileSys) : Nat → List FlatTok → List Nat →
    Option (List Char × List Nat × List Nat)
  | 0, _, _ => none
  | _ + 1, [], visited => some ([], visited, [])
  | fuel + 1, FlatTok.lit s :: rest, visited =>
    (expandToks fs fuel rest visited).map fun r => (s ++ r.1, r.2)
  | fuel + 1, FlatTok.incl f orig :: rest, visited =>
    if f ∈ visited then
      expandToks fs fuel rest visited
    else
      match fs.lookup f with
      | none => (expandToks fs fuel rest visited).map fun r => (orig ++ r.1, r.2)
      | some content =>
        match expandToks fs fuel content (f :: visited) with
        | none => none
        | some (sub, v1, ev1) =>
          match expandToks fs fuel rest v1 with
          | none => none
          | some (out, v2, ev2) => some (sub ++ out, v2, f :: (ev1 ++ ev2))

/-- Call shapes of `CombineTex.combine_tex_files`: `expand(path)` on a file,
or the `re.sub` traversal of one file's token list. -/
inductive CombineCall where
  | file (f : Nat)
  | toks (ts : List FlatTok)

/-- `CombineTex.expand` together with its `re.sub` callback.  Unlike
`expand_inputs`, `expand` marks the file itself visited before splicing, so
the root enters the visited set; a file that cannot be read contributes the
empty string after being marked visited. -/
def combineRun (fs : FileSys) : Nat → CombineCall → List Nat →
    Option (List Char × List Nat × List Nat)
  | 0, _, _ => none
  | fuel + 1, CombineCall.file f, visited =>
    if f ∈ visited then some ([], visited, [])
    else
      match fs.lookup f with
      | none => some ([], f :: visited, [])
      | some content =>
        (combineRun fs fuel (CombineCall.toks content) (f :: visited)).map
          fun r => (r.1, r.2.1, f :: r.2.2)
  | _ + 1, CombineCall.toks [], visited => some ([], visited, [])
  | fuel + 1, CombineCall.toks (FlatTok.lit s :: rest), visited =>
    (combineRun fs fuel (CombineCall.toks rest) visited).map fun r => (s ++ r.1, r.2)
  | fuel + 1, CombineCall.toks (FlatTok.incl g orig :: rest), visited =>
    match fs.lookup g with
    | none =>
      (combineRun fs fuel (CombineCall.toks rest) visited).map fun r => (orig ++ r.1, r.2)
    | some _ =>
      match combineRun fs fuel (CombineCall.file g) visited with
      | none => none
      | some (sub, v1, ev1) =>
        match combineRun fs fuel (CombineCall.toks rest) v1 with
        | none => none
        | some (out, v2, ev2) => some (sub ++ out, v2, ev1 ++ ev2)

/-- Fuel weight of the still-unvisited files. -/
def fsWeight (fs : FileSys) (visited : List Nat) : Nat :=
  (fs.map fun p => if p.1 ∈ visited then 0 else p.2.length + 2).sum

/-- `expand_inputs(original_text, parent_file)` as called from the main
driver: empty visited set and sufficient fuel. -/
def expandInputsRun (fs : FileSys) (rootToks : List FlatTok) :
    Option (List Char × List Nat × List Nat) :=
  expandToks fs (rootToks.length + 2 + fsWeight fs []) rootToks []

/-- `combine_tex_files(main_file, ...)`'s `expand(main_file)` call. -/
def combineTexRun (fs : FileSys) (root : Nat) :
    Option (List Char × List Nat × List Nat) :=
  combineRun fs (2 + fsWeight fs []) (CombineCall.file root) []

/-- Number of positions of `l` at which `tok` occurs. -/
def countTokOcc (tok : List Char) : List Char → Nat
  | [] => if tok.isPrefixOf [] then 1 else 0
  | c :: rest => (if tok.isPrefixOf (c :: rest) then 1 else 0) + countTokOcc tok rest

/-- A two-file cycle: file 0 includes file 1 and file 1 includes file 0. -/
def fsCycleAB : FileSys :=
  [(0, [FlatTok.lit (chars "a1"), FlatTok.incl 1 (chars "\\input{B}"),
        FlatTok.lit (chars "a2")]),
   (1, [FlatTok.lit (chars "b1"), FlatTok.incl 0 (chars "\\input{A}"),
        FlatTok.lit (chars "b2")])]

example :
    (expandInputsRun fsCycleAB [FlatTok.lit (chars "a1"),
        FlatTok.incl 1 (chars "\\input{B}"), FlatTok.lit (chars "a2")]).map
        (fun r => r.1) = some (chars "a1b1a1a2b2a2") := by decide
example :
    (combineTexRun fsCycleAB 0).map (fun r => r.1) = some (chars "a1b1b2a2") := by decide

/-!
## Equation locator (`find_equations`, tex2svg.py lines 495-581)
-/

/-- The environment-name alternation of the locator pattern, in regex trial
order (`equation\*?|align\*?|multline\*?|gather\*?|displaymath`, where the
greedy optional star tries the starred spelling first). -/
def eqEnvNames : List (List Char) :=
  [chars "equation*", chars "equation", chars "align*", chars "align",
   chars "multline*", chars "multline", chars "gather*", chars "gather",
   chars "displaymath"]

/-- Alternation over the environment names at one position: an alternative
succeeds when `\begin{E}` starts here and the backreferenced `\end{E}` occurs
later; the non-greedy body reaches the earliest such `\end{E}`. -/
def tryEnvMatchAt : List (List Char) → List Char → Option (List Char × List Char × List Char)
  | [], _ => none
  | e :: more, l =>
    if (beginTok e).isPrefixOf l then
      match splitFirstTok (endTok e) (l.drop (beginTok e).length) with
      | some (body, after) => some (e, body, after)
      | none => tryEnvMatchAt more l
    else tryEnvMatchAt more l

/-- One raw match of the locator pattern. -/
structure RawEq where
  env : List Char
  rawBody : List Char
  bodyStart : Nat
  bodyEnd : Nat
deriving DecidableEq

/-- The literal `\[` opener of the second alternative. -/
def bracketOpen : List Char := chars "\\["

/-- The literal `\]` closer. -/
def bracketClose : List Char := chars "\\]"

/-- `finditer` scan of the locator pattern: at each position try the
environment alternation, then the `\[ ... \]` alternative; on a match record
the body slice offsets and continue after the match.  `pos` is the absolute
offset of the current suffix; fuel is one unit per consumed character. -/
def scanEquations : Nat → Nat → List Char → List RawEq
  | 0, _, _ => []
  | _ + 1, _, [] => []
  | fuel + 1, pos, c :: rest =>
    match tryEnvMatchAt eqEnvNames (c :: rest) with
    | some (e, body, after) =>
      { env := e, rawBody := body, bodyStart := pos + (beginTok e).length,
        bodyEnd := pos + (beginTok e).length + body.length } ::
        scanEquations fuel
          (pos + (beginTok e).length + body.length + (endTok e).length) after
    | none =>
      if bracketOpen.isPrefixOf (c :: rest) then
        match splitFirstTok bracketClose ((c :: rest).drop 2) with
        | some (body, after) =>
          { env := chars "brackets", rawBody := body, bodyStart := pos + 2,
            bodyEnd := pos + 2 + body.length } ::
            scanEquations fuel (pos + 2 + body.length + 2) after
        | none => scanEquations fuel (pos + 1) rest
      else scanEquations fuel (pos + 1) rest

/-- All raw matches of the locator pattern over a text. -/
def findRawEquations (text : List Char) : List RawEq :=
  scanEquations (text.length + 1) 0 text

/-- First captured group of a `re.search` for `pre ++ [^}]* ++ '}'`:
scan for the earliest position where the opening token matches and a closing
brace follows; the capture stops at the first closing brace. -/
def searchCmdCapture (pre : List Char) : List Char → Option (List Char)
  | [] => none
  | c :: rest =>
    if pre.isPrefixOf (c :: rest) then
      match splitFirstTok ['}'] ((c :: rest).drop pre.length) with
      | some (cap, _) => some cap
      | none => searchCmdCapture pre rest
    else searchCmdCapture pre rest

/-- `re.sub(r'\\label\{[^\}]*\}', '', body)`: delete every (leftmost,
non-overlapping) label command. -/
def subRemoveLabels : Nat → List Char → List Char
  | 0, l => l
  | _ + 1, [] => []
  | fuel + 1, c :: rest =>
    if (chars "\\label\x7b").isPrefixOf (c :: rest) then
      match splitFirstTok ['}'] ((c :: rest).drop 7) with
      | some (_, after) => subRemoveLabels fuel after
      | none => c :: subRemoveLabels fuel rest
    else c :: subRemoveLabels fuel rest

/-- Match `\tag\*?\s*\{[^{}]*\}` at the head of `l`; returns the text after
the match. -/
def matchTagCmd (l : List Char) : Option (List Char) :=
  if (chars "\\tag").isPrefixOf l then
    let l1 := l.drop 4
    let l2 := if l1.head? = some '*' then l1.drop 1 else l1
    let l3 := l2.dropWhile pyIsSpace
    if l3.head? = some '{' then
      let inner := (l3.drop 1).takeWhile fun c => c ≠ '{' && c ≠ '}'
      let after := (l3.drop 1).drop inner.length
      if after.head? = some '}' then some (after.drop 1) else none
    else none
  else none

/-- `re.sub(r'\\tag\*?\s*\{[^{}]*\}', '', body)`. -/
def subRemoveTags : Nat → List Char → List Char
  | 0, l => l
  | _ + 1, [] => []
  | fuel + 1, c :: rest =>
    match matchTagCmd (c :: rest) with
    | some after => subRemoveTags fuel after
    | none => c :: subRemoveTags fuel rest

/-- `str.splitlines()` without kept ends: each line of the keepends split with
its terminator (one break character, or the two characters `"\r\n"`) removed. -/
def splitLinesNoKeep (l : List Char) : List (List Char) :=
  (splitLinesKeep l).map fun ln =>
    if (chars "\r\n").isSuffixOf ln then ln.dropLast.dropLast
    else
      match ln.getLast? with
      | some c => if pyIsLineBreak c then ln.dropLast else ln
      | none => ln

/-- A line whose `strip()` is empty. -/
def isBlankLine (l : List Char) : Bool := l.all pyIsSpace

/-- Collapse consecutive internal blank lines to one (the `prev_blank` loop of
`normalize_equation_body`). -/
def collapseBlanks : Bool → List (List Char) → List (List Char)
  | _, [] => []
  | prevBlank, ln :: rest =>
    let b := isBlankLine ln
    if b && prevBlank then collapseBlanks prevBlank rest
    else ln :: collapseBlanks b rest

/-- `normalize_equation_body` from tex2svg.py lines 584-601. -/
def normalizeEquationBody (s : List Char) : List Char :=
  let lines := splitLinesNoKeep s
  let l1 := lines.dropWhile isBlankLine
  let l2 := (l1.reverse.dropWhile isBlankLine).reverse
  List.intercalate ['\n'] (collapseBlanks false l2)

/-- A sentence-ending character of `strip_trailing_punctuation`. -/
def isPunctChar (c : Char) : Bool := c = '.' || c = ',' || c = ';' || c = ':'

/-- Does the rest of the (already stripped) string complete a match of
the pattern tail after its punctuation character was just consumed?
Either nothing is left, or whitespace followed by one label command whose
closing brace is the final character. -/
def punctRestCond (r : List Char) : Bool :=
  if r = [] then true
  else
    let r1 := r.dropWhile pyIsSpace
    if (chars "\\label\x7b").isPrefixOf r1 then
      let r2 := r1.drop 7
      r2 ≠ [] && r2.getLast? = some '}' && r2.dropLast.all (· ≠ '}')
    else false

/-- Offset of the leftmost position where the trailing-punctuation pattern
matches. -/
def stpScan : List Char → Option Nat
  | [] => none
  | c :: rest =>
    if isPunctChar c && punctRestCond rest then some 0
    else (stpScan rest).map (· + 1)

/-- `strip_trailing_punctuation` from tex2svg.py lines 604-605: delete the
trailing punctuation (optionally followed by a redundant label) from the
stripped equation text. -/
def stripTrailingPunctuation (s : List Char) : List Char :=
  let s1 := pyStrip s
  match stpScan s1 with
  | some i => s1.take i
  | none => s1

/-- Match `\chapter\*?\s*\{` at the head of `l`. -/
def matchChapterAt (l : List Char) : Bool :=
  (chars "\\chapter").isPrefixOf l &&
    (let l1 := l.drop 8
     let l2 := if l1.head? = some '*' then l1.drop 1 else l1
     (l2.dropWhile pyIsSpace).head? = some '{')

/-- Length of the `\chapter\*?\s*\{` match at the head of `l` (used to resume
the non-overlapping `finditer` scan after a match). -/
def chapterMatchLen (l : List Char) : Nat :=
  let l1 := l.drop 8
  let star := if l1.head? = some '*' then 1 else 0
  let ws := ((l1.drop star).takeWhile pyIsSpace).length
  8 + star + ws + 1

/-- Start offsets of all `\chapter\*?\s*\{` matches, ascending. -/
def chapterScan : Nat → Nat → List Char → List Nat
  | 0, _, _ => []
  | _ + 1, _, [] => []
  | fuel + 1, pos, c :: rest =>
    if matchChapterAt (c :: rest) then
      pos :: chapterScan fuel (pos + chapterMatchLen (c :: rest))
        ((c :: rest).drop (chapterMatchLen (c :: rest)))
    else chapterScan fuel (pos + 1) rest

/-- All chapter-command offsets of a text. -/
def chapterPositionsOf (text : List Char) : List Nat :=
  chapterScan (text.length + 1) 0 text

/-- The per-occurrence record assembled by `find_equations`. -/
structure EqRec where
  env : List Char
  rawBody : List Char
  cleanBody : List Char
  start : Nat
  stop : Nat
  hasLabel : Bool
  labelName : Option (List Char)
  hasTag : Bool
  tagText : Option (List Char)
  isStarred : Bool
  chapterIndex : Option Nat
deriving DecidableEq

/-- The `enumerate(chapter_positions, start=1)` loop computing the chapter
index: remember the 1-based index of each position below `start`, stop at the
first that is not. -/
def chapIdxLoop (eqStart : Nat) : Nat → Option Nat → List Nat → Option Nat
  | _, acc, [] => acc
  | i, acc, p :: rest =>
    if p < eqStart then chapIdxLoop eqStart (i + 1) (some i) rest else acc

/-- Assemble one `EqRec` from a raw match; `none` when the cleaned body is
empty (the `continue` in the source). -/
def mkEqRec (chapPos : List Nat) (r : RawEq) : Option EqRec :=
  let mTag := searchCmdCapture (chars "\\tag\x7b") r.rawBody
  let mLabel := searchCmdCapture (chars "\\label\x7b") r.rawBody
  let noLabels := subRemoveLabels (r.rawBody.length + 1) r.rawBody
  let noLabelsTags := subRemoveTags (noLabels.length + 1) noLabels
  let clean := stripTrailingPunctuation (normalizeEquationBody noLabelsTags)
  if clean = [] then none
  else
    some
      { env := r.env
        rawBody := r.rawBody
        cleanBody := clean
        start := r.bodyStart
        stop := r.bodyEnd
        hasLabel := mLabel.isSome
        labelName := mLabel
        hasTag := mTag.isSome
        tagText := mTag
        isStarred := r.env.getLast? = some '*'
        chapterIndex := chapIdxLoop r.bodyStart 1 none chapPos }

/-- `find_equations` over sanitized text. -/
def findEquations (text : List Char) : List EqRec :=
  (findRawEquations text).filterMap (mkEqRec (chapterPositionsOf text))

example :
    (findEquations (chars "\\begin{align} x=1 \\end{equation}")) = [] := by decide
example :
    (findEquations (chars "pre \\begin{equation}a=b\\label{eq:x}\\end{equation} post")).map
      (fun e => (e.env, e.cleanBody, e.hasLabel, e.labelName)) =
      [(chars "equation", chars "a=b", true, some (chars "eq:x"))] := by decide
example :
    (findEquations (chars "\\begin{equation} \\label{only} \\end{equation}")) = [] := by decide
example :
    (findEquations (chars "\\[ x = y. \\]")).map (fun e => (e.env, e.cleanBody)) =
      [(chars "brackets", chars "x = y")] := by decide
example :
    (findEquations
        (chars "\\chapter{A} \\begin{align*}z\\tag{T9}\\end{align*}")).map
      (fun e => (e.isStarred, e.hasTag, e.tagText, e.chapterIndex)) =
      [(true, true, some (chars "T9"), some 1)] := by decide

/-!
## Numbering reconciliation (tex2svg.py lines 46-50, 260-342)
-/

/-- `should_label_for_numbering` from tex2svg.py lines 46-50. -/
def shouldLabelForNumbering (env : List Char) : Bool :=
  if env.getLast? = some '*' then false
  else
    let base := (env.reverse.dropWhile (· = '*')).reverse
    base = chars "equation" || base = chars "align" ||
      base = chars "gather" || base = chars "multline"

/-- `AUTO_LABEL_PREFIX` (tex2svg.py line 19). -/
def autoLabelPrefix : List Char := chars "__ext_eq"

/-- The synthetic placeholder label `f"{AUTO_LABEL_PREFIX}{i}"`. -/
def autoName (i : Nat) : List Char := autoLabelPrefix ++ natChars i

/-- The shell-emission guard of `build_minimal_numbering_doc` line 301:
`not e.get("is_starred") and should_label_for_numbering(e["env"])`. -/
def eligibleForShell (e : EqRec) : Bool :=
  !e.isStarred && shouldLabelForNumbering e.env

/-- The label written into an emitted shell (line 302): the record's own
label when it has one, else the synthetic placeholder for the record's
1-based position in the sorted sequence. -/
def shellLabel (i : Nat) (e : EqRec) : List Char :=
  if e.hasLabel then
    match e.labelName with
    | some l => l
    | none => chars "None"
  else autoName i

/-- The text one record contributes to the synthetic body (lines 301-305):
an empty numbered `equation` shell carrying its label, or nothing. -/
def shellPart (i : Nat) (e : EqRec) : List Char :=
  if eligibleForShell e then
    chars "\\begin{equation}\\relax\n" ++ chars "\\label\x7b" ++ shellLabel i e ++
      chars "\x7d\n" ++ chars "\\end{equation}\n"
  else []

/-- One `\stepcounter{chapter}` line. -/
def stepChapterLine : List Char := chars "\\stepcounter{chapter}\n"

/-- Stable insertion of a record behind every record with a smaller-or-equal
start offset. -/
def insertByStart (e : EqRec) : List EqRec → List EqRec
  | [] => [e]
  | x :: xs => if x.start ≤ e.start then x :: insertByStart e xs else e :: x :: xs

/-- `sorted(eqs, key=lambda e: e['start'])`: a stable sort by start offset. -/
def sortByStart (l : List EqRec) : List EqRec :=
  l.foldl (fun acc e => insertByStart e acc) []

/-- The interleaving loop of `build_minimal_numbering_doc` (lines 294-310):
before each record, step the simulated chapter counter for every remaining
chapter offset strictly below the record's start; after the last record step
any chapters still pending. -/
def buildShells (hasCh : Bool) : Nat → List Nat → List EqRec → List Char
  | _, chaps, [] =>
    if hasCh then (List.replicate chaps.length stepChapterLine).flatten else []
  | i, chaps, e :: rest =>
    let consumed := if hasCh then (chaps.takeWhile (· < e.start)).length else 0
    (List.replicate consumed stepChapterLine).flatten ++ shellPart i e ++
      buildShells hasCh (i + 1)
        (if hasCh then chaps.dropWhile (· < e.start) else chaps) rest

/-- `build_minimal_numbering_doc` from tex2svg.py lines 260-313. -/
def buildMinimalNumberingDoc (cleanSrc : List Char) (eqs : List EqRec) : List Char :=
  let chapPos := chapterPositionsOf cleanSrc
  let hasCh := !chapPos.isEmpty || eqs.any fun e => e.chapterIndex.getD 0 ≠ 0
  chars "\\documentclass[preview,varwidth]{standalone}\n" ++
    chars "\\usepackage{amsmath,amssymb,amsfonts,mathtools,amsthm}\n" ++
    (if hasCh then chars "\\newcounter{chapter}\n" ++
      chars "\\numberwithin{equation}{chapter}\n" else []) ++
    chars "\\begin{document}\n" ++
    buildShells hasCh 1 chapPos (sortByStart eqs) ++
    chars "\\end{document}\n"

/-- The labels of all shells the synthetic document carries, in order. -/
def docLabels (eqs : List EqRec) : List (List Char) :=
  (List.enumFrom 1 (sortByStart eqs)).filterMap fun p =>
    if eligibleForShell p.2 then some (shellLabel p.1 p.2) else none

/-- A parsed cross-reference table: label name to printed number. -/
abbrev LabelMap := List (List Char × List Char)

/-- The printed-name choice for the record at 0-based position `i`
(`map_equations_to_display_names` lines 324-335): explicit tag text first,
then the record's own label when numberable and present in the table, then
the positional placeholder, else nothing. -/
def resolveOne (m : LabelMap) (i : Nat) (e : EqRec) : Option (List Char) :=
  if e.hasTag then e.tagText
  else
    let viaLabel : Option (List Char) :=
      if shouldLabelForNumbering e.env && e.hasLabel then
        match e.labelName with
        | some l => m.lookup l
        | none => none
      else none
    match viaLabel with
    | some v => some v
    | none => m.lookup (autoName (i + 1))

/-- Outcome of the scratch `pdflatex` run of `compile_temp_and_parse_aux`
(lines 130-240): the subprocess may time out, may finish without leaving an
`.aux` cross-reference table, or leaves a table that parses to a `LabelMap`.
The first two cases return `None` in the source. -/
inductive CompileOutcome where
  | timeout
  | noAux
  | auxTable (m : LabelMap)

/-- The value `compile_temp_and_parse_aux` returns for each outcome. -/
def compileTempAndParseAux : CompileOutcome → Option LabelMap
  | CompileOutcome.timeout => none
  | CompileOutcome.noAux => none
  | CompileOutcome.auxTable m => some m

/-- `map_equations_to_display_names` (lines 315-342), with the external
compilation modelled by its parsed result: `None` yields all-`none`,
otherwise each record is resolved against the table. -/
def mapEquationsToDisplayNames (eqs : List EqRec) (labelMap : Option LabelMap) :
    List (Option (List Char)) :=
  match labelMap with
  | none => List.replicate eqs.length none
  | some m => eqs.enum.map fun p => resolveOne m p.1 p.2

/-- `_normalize_printed_name_for_prechapter` (main-block version, lines
881-887): drop a leading `0.` from the printed name of a pre-chapter record.
(The regex `^0\.(.+)$` needs at least one further character.) -/
def normalizePrechapter (printed : Option (List Char)) (e : EqRec) : Option (List Char) :=
  match printed with
  | none => none
  | some p =>
    if e.chapterIndex = none && (chars "0.").isPrefixOf p && 2 < p.length then
      some (p.drop 2)
    else some p

/-- The emission loop of the main block (lines 896-899): one filename per
record, indexed from 1, named from the (prechapter-normalized) display name. -/
def emitFilenames (eqs : List EqRec) (names : List (Option (List Char))) : List (List Char) :=
  (List.enumFrom 1 ((eqs.zip names).map fun p => normalizePrechapter p.2 p.1)).map
    fun p => makeFilenameWithTag p.1 p.2

/-- A tagged, unlabeled, unstarred `equation` record. -/
def sampleTaggedEq : EqRec :=
  { env := chars "equation", rawBody := chars "x\\tag{A1}", cleanBody := chars "x",
    start := 10, stop := 19, hasLabel := false, labelName := none,
    hasTag := true, tagText := some (chars "A1"), isStarred := false,
    chapterIndex := none }

set_option maxRecDepth 8192 in
example :
    buildMinimalNumberingDoc [] [sampleTaggedEq] =
      chars "\\documentclass[preview,varwidth]{standalone}\n" ++
        chars "\\usepackage{amsmath,amssymb,amsfonts,mathtools,amsthm}\n" ++
        chars "\\begin{document}\n" ++
        chars "\\begin{equation}\\relax\n\\label{__ext_eq1}\n\\end{equation}\n" ++
        chars "\\end{document}\n" := by decide
example :
    mapEquationsToDisplayNames [sampleTaggedEq] none = [none] := by decide
example :
    emitFilenames [sampleTaggedEq] [none] = [chars "Eq_001_(unnumbered).tex"] := by decide

/-!
## Theorems
-/

theorem lookup_mem {α β : Type} [BEq α] [LawfulBEq α] :
    ∀ (m : List (α × β)) (k : α) (v : β), m.lookup k = some v → (k, v) ∈ m := by
  intro m k v h
  induction m with
  | nil => simp [List.lookup] at h
  | cons p t ih =>
    rw [List.lookup] at h
    cases hk : k == p.1 with
    | true =>
      rw [hk] at h
      simp only [Option.some.injEq] at h
      have hkp : k = p.1 := eq_of_beq hk
      cases p
      simp_all
    | false =>
      rw [hk] at h
      exact List.mem_cons_of_mem _ (ih h)

theorem normalizePrechapter_none (e : EqRec) : normalizePrechapter none e = none := rfl

theorem zip_replicate_none_names (eqs : List EqRec) :
    (eqs.zip (List.replicate eqs.length (none : Option (List Char)))).map
      (fun p => normalizePrechapter p.2 p.1) =
      List.replicate eqs.length (none : Option (List Char)) := by
  induction eqs with
  | nil => rfl
  | cons e t ih => simpa [List.replicate_succ, normalizePrechapter] using ih

theorem enumFrom_replicate_filenames (n k : Nat) :
    (List.enumFrom k (List.replicate n (none : Option (List Char)))).map
      (fun p => makeFilenameWithTag p.1 p.2) =
      (List.range' k n).map fun i => makeFilenameWithTag i none := by
  induction n generalizing k with
  | zero => rfl
  | succ m ih => simp [List.replicate_succ, List.range', ih]

/-- C4: when the reconciliation compile fails (timeout, or a run that leaves
no `.aux` table), every record's printedName is `none`, and the emission stage
still produces one standalone filename per record, each carrying the
"unnumbered" tag segment. -/
theorem c4_compile_failure_degrades (eqs : List EqRec) :
    mapEquationsToDisplayNames eqs (compileTempAndParseAux CompileOutcome.timeout) =
      List.replicate eqs.length none ∧
    mapEquationsToDisplayNames eqs (compileTempAndParseAux CompileOutcome.noAux) =
      List.replicate eqs.length none ∧
    emitFilenames eqs
        (mapEquationsToDisplayNames eqs (compileTempAndParseAux CompileOutcome.timeout)) =
      (List.range' 1 eqs.length).map
        (fun i => chars "Eq_" ++ zeroPad 3 i ++ chars "_(" ++ chars "unnumbered" ++
          chars ").tex") := by
  refine ⟨rfl, rfl, ?_⟩
  show emitFilenames eqs (List.replicate eqs.length none) = _
  rw [emitFilenames, zip_replicate_none_names, enumFrom_replicate_filenames]
  rfl

theorem tagSubs_safe (l : List Char) :
    ∀ c ∈ tagSubs l, isWordChar c = true ∨ c = '.' ∨ c = '-' := by
  intro c hc
  rcases List.mem_map.mp hc with ⟨a, _, rfl⟩
  by_cases hs : isWordChar a || a = '.' || a = '-'
  · rw [if_pos hs]
    rcases Bool.or_eq_true_iff.mp hs with h1 | h2
    · rcases Bool.or_eq_true_iff.mp h1 with h3 | h4
      · exact Or.inl h3
      · exact Or.inr (Or.inl (by simpa using h4))
    · exact Or.inr (Or.inr (by simpa using h2))
  · rw [if_neg hs]
    exact Or.inl (by decide)

theorem unnumbered_safe :
    ∀ c ∈ chars "unnumbered", isWordChar c = true ∨ c = '.' ∨ c = '-' := by decide

/-- C8 counterexample: the claim says every non-alphanumeric character of the
printed name is replaced by an underscore, but the sanitizer keeps `.` (and
`-`) verbatim, and collapses a whitespace run into a single underscore rather
than one per character. -/
theorem c8_counterexample :
    cleanTagForFilename (some (chars "1.2")) = chars "1.2" ∧
    chars "1.2" ≠ chars "1_2" ∧
    cleanTagForFilename (some (chars "a  b")) = chars "a_b" ∧
    chars "a_b" ≠ chars "a__b" := by decide

/-- C8 (amended): the emitted filename is the fixed stem, the zero-padded
(width-3) sequential index, and the parenthesised sanitized printed name, in
which whitespace runs collapse to single underscores and every character other
than a word character (letter, digit, underscore), `.` or `-` becomes an
underscore; the literal "unnumbered" is used when the printed name is absent
or empty or when sanitization leaves the empty string, and otherwise the
sanitized form itself (always nonempty) is used. -/
theorem c8_filename_encoding (idx : Nat) (name : Option (List Char)) :
    makeFilenameWithTag idx name =
      chars "Eq_" ++ zeroPad 3 idx ++ chars "_(" ++ cleanTagForFilename name ++
        chars ").tex" ∧
    (∀ c ∈ cleanTagForFilename name, isWordChar c = true ∨ c = '.' ∨ c = '-') ∧
    cleanTagForFilename name ≠ [] ∧
    (name = none → cleanTagForFilename name = chars "unnumbered") ∧
    (∀ r, name = some r → r = [] → cleanTagForFilename name = chars "unnumbered") ∧
    (∀ r, name = some r → tagSubs (tagAfterParenStrip r) = [] →
      cleanTagForFilename name = chars "unnumbered") ∧
    (∀ r, name = some r → r ≠ [] → tagSubs (tagAfterParenStrip r) ≠ [] →
      cleanTagForFilename name = tagSubs (tagAfterParenStrip r)) ∧
    3 ≤ (zeroPad 3 idx).length := by
  refine ⟨rfl, ?_, ?_, ?_, ?_, ?_, ?_, ?_⟩
  · intro c hc
    match name with
    | none => exact unnumbered_safe c hc
    | some r =>
      rw [cleanTagForFilename] at hc
      by_cases h0 : r = []
      · rw [if_pos h0] at hc
        exact unnumbered_safe c hc
      · rw [if_neg h0] at hc
        by_cases h2 : tagSubs (tagAfterParenStrip r) = []
        · simp only [h2, if_pos] at hc
          exact unnumbered_safe c (by simpa using hc)
        · simp only [if_neg h2] at hc
          exact tagSubs_safe _ c hc
  · match name with
    | none => decide
    | some r =>
      rw [cleanTagForFilename]
      by_cases h0 : r = []
      · rw [if_pos h0]; decide
      · rw [if_neg h0]
        by_cases h2 : tagSubs (tagAfterParenStrip r) = []
        · simp only [h2, if_pos]; decide
        · simpa only [if_neg h2] using h2
  · intro h; subst h; rfl
  · intro r h hr; subst h; simp [cleanTagForFilename, hr]
  · intro r h ht; subst h
    rw [cleanTagForFilename]
    by_cases h0 : r = []
    · rw [if_pos h0]
    · rw [if_neg h0]; simp [ht]
  · intro r h hr ht; subst h
    rw [cleanTagForFilename, if_neg hr]
    simp [ht]
  · rw [zeroPad]
    simp only [List.length_append, List.length_replicate]
    omega

/-- C10: when the stripped printed name is `'(' mid ')'`, exactly that single
pair of parentheses is removed together with the whitespace just inside, and
the substitutions are applied to what remains, so tag text `(5)` becomes the
filename segment `5` and not `_5_`. -/
theorem c10_paren_strip (raw mid : List Char)
    (h : pyStrip raw = '(' :: (mid ++ [')'])) :
    tagAfterParenStrip raw = pyStrip mid ∧
    cleanTagForFilename (some raw) =
      (if tagSubs (pyStrip mid) = [] then chars "unnumbered"
       else tagSubs (pyStrip mid)) ∧
    cleanTagForFilename (some (chars "(5)")) = chars "5" ∧
    chars "5" ≠ chars "_5_" := by
  have hne : raw ≠ [] := by
    intro h0
    rw [h0] at h
    simp [pyStrip, pyRstrip, pyLstrip] at h
  have hparen : tagAfterParenStrip raw = pyStrip mid := by
    rw [tagAfterParenStrip]
    have hcons : '(' :: (mid ++ [')']) = ('(' :: mid) ++ [')'] := by
      simp
    have hhead : (pyStrip raw).head? = some '(' := by rw [h]; rfl
    have hlast : (pyStrip raw).getLast? = some ')' := by
      rw [h, hcons, List.getLast?_concat]
    simp only [hhead, hlast]
    have hdrop : (pyStrip raw).drop 1 = mid ++ [')'] := by rw [h]; rfl
    simp only [hdrop]
    rw [List.dropLast_concat]
    rfl
  refine ⟨hparen, ?_, by decide, by decide⟩
  rw [cleanTagForFilename, if_neg hne, hparen]

theorem c8_filename_encoding_witness :
    cleanTagForFilename (some (chars "x y")) =
      tagSubs (tagAfterParenStrip (chars "x y")) :=
  (c8_filename_encoding 5 (some (chars "x y"))).2.2.2.2.2.2.1 (chars "x y") rfl
    (by decide) (by decide)

theorem c10_paren_strip_witness :
    tagAfterParenStrip (chars "(5)") = pyStrip (chars "5") ∧
    cleanTagForFilename (some (chars "(5)")) =
      (if tagSubs (pyStrip (chars "5")) = [] then chars "unnumbered"
       else tagSubs (pyStrip (chars "5"))) ∧
    cleanTagForFilename (some (chars "(5)")) = chars "5" ∧
    chars "5" ≠ chars "_5_" :=
  c10_paren_strip (chars "(5)") (chars "5") (by decide)

set_option maxRecDepth 8192 in
/-- C2 counterexample: a record carrying an explicit `\tag` (and no label) is
not left alone by the synthetic-document builder — the shell guard ignores
tags, so the record receives the synthetic placeholder label `__ext_eq1` and
contributes a numbered shell to the counter simulation. -/
theorem c2_counterexample :
    sampleTaggedEq.hasTag = true ∧ sampleTaggedEq.hasLabel = false ∧
    shellPart 1 sampleTaggedEq ≠ [] ∧
    countTokOcc (chars "\\label{__ext_eq1}")
      (buildMinimalNumberingDoc [] [sampleTaggedEq]) = 1 := by decide

/-- C2 (amended): a record with an explicit label has that label (never a
placeholder) written into its shell, and a record with an explicit tag has
its tag text used directly as printedName regardless of the parsed
cross-reference table; however, a tagged record that is unstarred and
numberable still contributes a numbered shell to the counter simulation,
labeled with its own label if present and with the synthetic placeholder
otherwise. -/
theorem c2_explicit_label_tag (i : Nat) (e : EqRec) (m : LabelMap) :
    (e.hasLabel = true → ∀ l, e.labelName = some l → shellLabel i e = l) ∧
    (e.hasTag = true → resolveOne m i e = e.tagText) ∧
    (eligibleForShell e = true →
      shellPart i e = chars "\\begin{equation}\\relax\n" ++ chars "\\label\x7b" ++
        shellLabel i e ++ chars "\x7d\n" ++ chars "\\end{equation}\n") ∧
    (e.hasTag = true → e.hasLabel = false → eligibleForShell e = true →
      shellPart i e = chars "\\begin{equation}\\relax\n" ++ chars "\\label\x7b" ++
        autoName i ++ chars "\x7d\n" ++ chars "\\end{equation}\n") := by
  refine ⟨?_, ?_, ?_, ?_⟩
  · intro hl l hname
    rw [shellLabel, if_pos hl, hname]
  · intro ht
    rw [resolveOne, if_pos ht]
  · intro he
    rw [shellPart, if_pos he]
  · intro ht hl he
    rw [shellPart, if_pos he, shellLabel, hl]
    simp

theorem c2_explicit_label_tag_witness :
    resolveOne [] 0 sampleTaggedEq = sampleTaggedEq.tagText ∧
    shellPart 1 sampleTaggedEq = chars "\\begin{equation}\\relax\n" ++
      chars "\\label\x7b" ++ autoName 1 ++ chars "\x7d\n" ++ chars "\\end{equation}\n" :=
  ⟨(c2_explicit_label_tag 0 sampleTaggedEq []).2.1 rfl,
   (c2_explicit_label_tag 1 sampleTaggedEq []).2.2.2 rfl rfl (by decide)⟩

theorem natCharsAux_eq_digits :
    ∀ fuel n, n ≤ fuel →
      natCharsAux fuel n = ((Nat.digits 10 n).map Nat.digitChar).reverse := by
  intro fuel
  induction fuel with
  | zero =>
    intro n hn
    interval_cases n
    simp [natCharsAux]
  | succ f ih =>
    intro n hn
    match n with
    | 0 => simp [natCharsAux]
    | m + 1 =>
      rw [natCharsAux, Nat.digits_def' (by norm_num : (1:Nat) < 10) (Nat.succ_pos m)]
      rw [List.map_cons, List.reverse_cons]
      rw [ih ((m + 1) / 10) (by
        have := Nat.div_lt_self (Nat.succ_pos m) (by norm_num : (1:Nat) < 10)
        omega)]

theorem digitChar_inj_lt10 :
    ∀ d e : Nat, d < 10 → e < 10 → Nat.digitChar d = Nat.digitChar e → d = e := by
  intro d e hd he h
  interval_cases d <;> interval_cases e <;> revert h <;> decide

theorem map_digitChar_inj :
    ∀ la lb : List Nat, (∀ x ∈ la, x < 10) → (∀ x ∈ lb, x < 10) →
      la.map Nat.digitChar = lb.map Nat.digitChar → la = lb := by
  intro la
  induction la with
  | nil =>
    intro lb _ _ h
    cases lb with
    | nil => rfl
    | cons b t => simp at h
  | cons a ta ih =>
    intro lb ha hb h
    cases lb with
    | nil => simp at h
    | cons b tb =>
      simp only [List.map_cons, List.cons.injEq] at h
      have h1 : a = b :=
        digitChar_inj_lt10 a b (ha a (by simp)) (hb b (by simp)) h.1
      have h2 : ta = tb :=
        ih tb (fun x hx => ha x (by simp [hx])) (fun x hx => hb x (by simp [hx])) h.2
      rw [h1, h2]

theorem natChars_injective : Function.Injective natChars := by
  intro a b h
  rw [natChars, natChars] at h
  by_cases ha : a = 0 <;> by_cases hb : b = 0
  · omega
  · exfalso
    rw [if_pos ha, if_neg hb, natCharsAux_eq_digits b b le_rfl] at h
    have hdig : (Nat.digits 10 b).map Nat.digitChar = ['0'] := by
      have := congrArg List.reverse h
      simpa using this.symm
    have : Nat.digits 10 b = [0] := by
      cases hd : Nat.digits 10 b with
      | nil => rw [hd] at hdig; simp at hdig
      | cons x t =>
        rw [hd] at hdig
        cases t with
        | nil =>
          simp only [List.map_cons, List.map_nil, List.cons.injEq] at hdig
          have hx : x < 10 := Nat.digits_lt_base (by norm_num) (by rw [hd]; simp)
          have : x = 0 := digitChar_inj_lt10 x 0 hx (by norm_num) (by simpa using hdig.1)
          rw [this]
        | cons y u => simp at hdig
    have hb0 : b = Nat.ofDigits 10 (Nat.digits 10 b) := (Nat.ofDigits_digits 10 b).symm
    rw [this] at hb0
    simp [Nat.ofDigits] at hb0
    exact hb hb0
  · exfalso
    rw [if_neg ha, if_pos hb, natCharsAux_eq_digits a a le_rfl] at h
    have hdig : (Nat.digits 10 a).map Nat.digitChar = ['0'] := by
      have := congrArg List.reverse h
      simpa using this
    have : Nat.digits 10 a = [0] := by
      cases hd : Nat.digits 10 a with
      | nil => rw [hd] at hdig; simp at hdig
      | cons x t =>
        rw [hd] at hdig
        cases t with
        | nil =>
          simp only [List.map_cons, List.map_nil, List.cons.injEq] at hdig
          have hx : x < 10 := Nat.digits_lt_base (by norm_num) (by rw [hd]; simp)
          have : x = 0 := digitChar_inj_lt10 x 0 hx (by norm_num) (by simpa using hdig.1)
          rw [this]
        | cons y u => simp at hdig
    have ha0 : a = Nat.ofDigits 10 (Nat.digits 10 a) := (Nat.ofDigits_digits 10 a).symm
    rw [this] at ha0
    simp [Nat.ofDigits] at ha0
    exact ha ha0
  · rw [if_neg ha, if_neg hb, natCharsAux_eq_digits a a le_rfl,
      natCharsAux_eq_digits b b le_rfl] at h
    have h2 : (Nat.digits 10 a).map Nat.digitChar = (Nat.digits 10 b).map Nat.digitChar :=
      List.reverse_injective h
    have h3 : Nat.digits 10 a = Nat.digits 10 b :=
      map_digitChar_inj _ _ (fun x hx => Nat.digits_lt_base (by norm_num) hx)
        (fun x hx => Nat.digits_lt_base (by norm_num) hx) h2
    have := congrArg (Nat.ofDigits 10) h3
    rwa [Nat.ofDigits_digits, Nat.ofDigits_digits] at this

theorem autoName_injective : Function.Injective autoName := by
  intro a b h
  exact natChars_injective (List.append_cancel_left h)

/-- A starred, tagless `align*` record. -/
def starredNoTagEq : EqRec :=
  { env := chars "align*", rawBody := chars "y", cleanBody := chars "y",
    start := 50, stop := 51, hasLabel := false, labelName := none,
    hasTag := false, tagText := none, isStarred := true, chapterIndex := none }

/-- An unstarred `equation` record whose user label collides with the
placeholder namespace. -/
def collidingLabelEq : EqRec :=
  { env := chars "equation", rawBody := chars "x\\label{__ext_eq2}",
    cleanBody := chars "x", start := 0, stop := 18, hasLabel := true,
    labelName := some (chars "__ext_eq2"), hasTag := false, tagText := none,
    isStarred := false, chapterIndex := none }

set_option maxRecDepth 8192 in
/-- C3 counterexample: a starred record's printedName is populated from the
reconciliation label map when another record's explicit label happens to equal
the starred record's synthetic placeholder name `__ext_eq2`: the starred,
tagless record resolves to the mapped value "1" instead of none.  The map's
single key is exactly the label the synthetic document emits for this input. -/
theorem c3_counterexample :
    starredNoTagEq.env.getLast? = some '*' ∧ starredNoTagEq.hasTag = false ∧
    docLabels [collidingLabelEq, starredNoTagEq] = [chars "__ext_eq2"] ∧
    mapEquationsToDisplayNames [collidingLabelEq, starredNoTagEq]
        (some [(chars "__ext_eq2", chars "1")]) =
      [some (chars "1"), some (chars "1")] := by decide

/-- C3 (amended): a record whose environment name ends in `*` never emits a
numbered shell, and its printedName is its explicit tag text (or none) rather
than a label-map entry — provided no record's explicit label textually
collides with the placeholder namespace (as the counterexample shows such a
collision defeats this); the map's keys are those of the synthetic document's
shells. -/
theorem c3_starred_never_from_map (eqs : List EqRec) (m : LabelMap) (i : Nat)
    (e : EqRec)
    (hget : eqs.get? i = some e)
    (hstar : e.env.getLast? = some '*')
    (hsorted : sortByStart eqs = eqs)
    (hdom : ∀ k v, (k, v) ∈ m → k ∈ docLabels eqs)
    (hcol : ∀ e' ∈ eqs, e'.hasLabel = true → ∀ l, e'.labelName = some l →
      ∀ j, l ≠ autoName j) :
    eligibleForShell e = false ∧
    shellPart (i + 1) e = [] ∧
    (mapEquationsToDisplayNames eqs (some m)).get? i =
      some (if e.hasTag then e.tagText else none) := by
  have hshould : shouldLabelForNumbering e.env = false := by
    rw [shouldLabelForNumbering, if_pos hstar]
  have helig : eligibleForShell e = false := by
    rw [eligibleForShell, hshould, Bool.and_false]
  refine ⟨helig, ?_, ?_⟩
  · rw [shellPart, if_neg (by simp [helig])]
  · have hauto : m.lookup (autoName (i + 1)) = none := by
      cases hl : m.lookup (autoName (i + 1)) with
      | none => rfl
      | some v =>
        exfalso
        have hmem := lookup_mem m _ _ hl
        have hdoc := hdom _ _ hmem
        rw [docLabels, hsorted] at hdoc
        rcases List.mem_filterMap.mp hdoc with ⟨⟨j, e'⟩, hjm, hout⟩
        by_cases helig' : eligibleForShell e' = true
        · rw [if_pos helig'] at hout
          have hlab : shellLabel j e' = autoName (i + 1) := by
            simpa using hout
          have he'mem : e' ∈ eqs := by
            rcases List.mem_enumFrom hjm with ⟨h1, h2, h3⟩
            rw [h3]
            exact List.getElem_mem _
          by_cases hhl : e'.hasLabel = true
          · rw [shellLabel, if_pos hhl] at hlab
            cases hln : e'.labelName with
            | some l =>
              rw [hln] at hlab
              exact hcol e' he'mem hhl l hln (i + 1) hlab
            | none =>
              rw [hln] at hlab
              have hlab' : chars "None" = autoName (i + 1) := hlab
              have hlen := congrArg List.length hlab'
              rw [autoName, List.length_append] at hlen
              have h8 : autoLabelPrefix.length = 8 := rfl
              have h4 : (chars "None").length = 4 := rfl
              rw [h8, h4] at hlen
              omega
          · rw [shellLabel, if_neg (by simp [hhl] : ¬e'.hasLabel = true)] at hlab
            have hj : j = i + 1 := autoName_injective hlab
            subst hj
            rcases List.mem_enumFrom hjm with ⟨h1, h2, h3⟩
            have hb : i + 1 - 1 < eqs.length := by omega
            have h5 : eqs[i + 1 - 1]? = some eqs[i + 1 - 1] :=
              List.getElem?_eq_getElem hb
            have h6 : eqs[i + 1 - 1]? = some e := by
              have hidx : i + 1 - 1 = i := rfl
              rw [hidx, ← List.get?_eq_getElem?]
              exact hget
            have he' : e' = e := by
              rw [h3]
              rw [h5] at h6
              exact Option.some.inj h6
            rw [he'] at helig'
            rw [helig'] at helig
            exact Bool.true_eq_false.mp helig
        · rw [if_neg helig'] at hout
          exact Option.noConfusion hout
    rw [mapEquationsToDisplayNames]
    rw [List.get?_eq_getElem?, List.getElem?_map, List.getElem?_enum]
    have hi : eqs[i]? = some e := by rw [← List.get?_eq_getElem?]; exact hget
    rw [hi]
    show some (resolveOne m i e) = some (if e.hasTag then e.tagText else none)
    congr 1
    rw [resolveOne]
    by_cases ht : e.hasTag = true
    · rw [if_pos ht, if_pos ht]
    · rw [if_neg ht, if_neg ht]
      simp [hshould, hauto]

theorem natCharsAux_length_pos :
    ∀ fuel n, 0 < n → n ≤ fuel → 0 < (natCharsAux fuel n).length := by
  intro fuel n hn hf
  match fuel, n with
  | 0, n => omega
  | f + 1, m + 1 => simp [natCharsAux]

theorem natChars_length_pos (n : Nat) : 0 < (natChars n).length := by
  rw [natChars]
  by_cases h : n = 0
  · simp [h]
  · rw [if_neg h]
    exact natCharsAux_length_pos n n (by omega) le_rfl

/-- An unstarred `equation` record with an ordinary user label. -/
def labeledEq : EqRec :=
  { env := chars "equation", rawBody := chars "x\\label{eq:x}",
    cleanBody := chars "x", start := 0, stop := 12, hasLabel := true,
    labelName := some (chars "eq:x"), hasTag := false, tagText := none,
    isStarred := false, chapterIndex := none }

theorem eqx_ne_autoName : ∀ j, chars "eq:x" ≠ autoName j := by
  intro j h
  have hlen := congrArg List.length h
  have hpos := natChars_length_pos j
  simp only [autoName, autoLabelPrefix, List.length_append] at hlen
  revert hlen
  simp [chars]
  omega

theorem c3_starred_never_from_map_witness :
    eligibleForShell starredNoTagEq = false ∧
    shellPart 2 starredNoTagEq = [] ∧
    (mapEquationsToDisplayNames [labeledEq, starredNoTagEq]
        (some [(chars "eq:x", chars "1")])).get? 1 =
      some (if starredNoTagEq.hasTag then starredNoTagEq.tagText else none) :=
  c3_starred_never_from_map [labeledEq, starredNoTagEq]
    [(chars "eq:x", chars "1")] 1 starredNoTagEq (by decide) (by decide)
    (by decide)
    (by
      intro k v hkv
      simp only [List.mem_singleton, Prod.mk.injEq] at hkv
      rw [hkv.1]
      decide)
    (by
      intro e' he' hl l hln j
      simp only [List.mem_cons, List.mem_singleton] at he'
      rcases he' with he' | he' | he'
      · rw [he'] at hln
        have : l = chars "eq:x" := by
          have : some (chars "eq:x") = some l := hln
          simpa using this.symm
        rw [this]
        exact eqx_ne_autoName j
      · rw [he'] at hl
        exact absurd hl (by decide)
      · exact absurd he' (by simp))

theorem splitFirstTok_sound (tok : List Char) :
    ∀ l a b, splitFirstTok tok l = some (a, b) → l = a ++ tok ++ b := by
  intro l
  induction l with
  | nil =>
    intro a b h
    rw [splitFirstTok] at h
    by_cases hp : tok.isPrefixOf ([] : List Char) = true
    · rw [if_pos hp] at h
      have htok : tok = [] := List.prefix_nil.mp (List.isPrefixOf_iff_prefix.mp hp)
      simp only [Option.some.injEq, Prod.mk.injEq] at h
      rw [← h.1, ← h.2, htok]
      rfl
    · rw [if_neg hp] at h
      exact Option.noConfusion h
  | cons c rest ih =>
    intro a b h
    rw [splitFirstTok] at h
    by_cases hp : tok.isPrefixOf (c :: rest) = true
    · rw [if_pos hp] at h
      simp only [Option.some.injEq, Prod.mk.injEq] at h
      rcases List.isPrefixOf_iff_prefix.mp hp with ⟨t, ht⟩
      have hdrop : (c :: rest).drop tok.length = t := by
        rw [← ht]
        exact List.drop_left tok t
      rw [← h.1, ← h.2, hdrop]
      simpa using ht.symm
    · rw [if_neg hp] at h
      cases hs : splitFirstTok tok rest with
      | none => rw [hs] at h; exact Option.noConfusion h
      | some ab =>
        rw [hs] at h
        have hinj := Option.some.inj h
        have h1 : c :: ab.1 = a := congrArg Prod.fst hinj
        have h2 : ab.2 = b := congrArg Prod.snd hinj
        have hrest := ih ab.1 ab.2 (by rw [hs])
        rw [← h1, ← h2, hrest]
        simp

theorem tryEnvMatchAt_sound :
    ∀ (envs : List (List Char)) l e body after,
      tryEnvMatchAt envs l = some (e, body, after) →
      e ∈ envs ∧ l = beginTok e ++ body ++ endTok e ++ after := by
  intro envs
  induction envs with
  | nil => intro l e body after h; exact Option.noConfusion h
  | cons e' more ih =>
    intro l e body after h
    rw [tryEnvMatchAt] at h
    by_cases hp : (beginTok e').isPrefixOf l = true
    · rw [if_pos hp] at h
      cases hs : splitFirstTok (endTok e') (l.drop (beginTok e').length) with
      | none =>
        rw [hs] at h
        rcases ih l e body after h with ⟨hm, hd⟩
        exact ⟨List.mem_cons_of_mem _ hm, hd⟩
      | some mid_after =>
        rw [hs] at h
        simp only [Option.some.injEq, Prod.mk.injEq] at h
        obtain ⟨he, hb, ha⟩ := h
        rcases List.isPrefixOf_iff_prefix.mp hp with ⟨t, ht⟩
        have hdrop : l.drop (beginTok e').length = t := by
          rw [← ht]
          exact List.drop_left (beginTok e') t
        have hmid := splitFirstTok_sound (endTok e') _ _ _
          (by rw [hs] : splitFirstTok (endTok e') (l.drop (beginTok e').length) =
            some (mid_after.1, mid_after.2))
        rw [hdrop] at hmid
        constructor
        · rw [← he]
          exact List.mem_cons_self _ _
        · rw [← he, ← hb, ← ha, ← ht, hmid]
          simp
    · rw [if_neg hp] at h
      rcases ih l e body after h with ⟨hm, hd⟩
      exact ⟨List.mem_cons_of_mem _ hm, hd⟩

theorem mem_eqEnvNames_ne_brackets :
    ∀ e ∈ eqEnvNames, e ≠ chars "brackets" := by decide

theorem scanEquations_decomp :
    ∀ fuel pos l r, r ∈ scanEquations fuel pos l →
      (r.env ≠ chars "brackets" →
        ∃ u w, l = u ++ beginTok r.env ++ r.rawBody ++ endTok r.env ++ w) ∧
      (r.env = chars "brackets" →
        ∃ u w, l = u ++ bracketOpen ++ r.rawBody ++ bracketClose ++ w) := by
  intro fuel
  induction fuel with
  | zero => intro pos l r h; exact absurd h (List.not_mem_nil r)
  | succ f ih =>
    intro pos l r h
    match l with
    | [] => exact absurd h (List.not_mem_nil r)
    | c :: rest =>
      rw [scanEquations] at h
      cases htry : tryEnvMatchAt eqEnvNames (c :: rest) with
      | some m =>
        obtain ⟨e, body, after⟩ := m
        rw [htry] at h
        rcases List.mem_cons.mp h with hhead | htail
        · rcases tryEnvMatchAt_sound eqEnvNames (c :: rest) e body after htry with ⟨hm, hd⟩
          have henv : r.env = e := by rw [hhead]
          have hraw : r.rawBody = body := by rw [hhead]
          constructor
          · intro _
            exact ⟨[], after, by rw [henv, hraw]; simpa using hd⟩
          · intro hbr
            exact absurd (henv ▸ hbr) (mem_eqEnvNames_ne_brackets e hm)
        · rcases ih _ after r htail with ⟨h1, h2⟩
          rcases tryEnvMatchAt_sound eqEnvNames (c :: rest) e body after htry with ⟨_, hd⟩
          constructor
          · intro hne
            rcases h1 hne with ⟨u, w, hu⟩
            refine ⟨beginTok e ++ body ++ endTok e ++ u, w, ?_⟩
            rw [hd, hu]
            simp
          · intro hbr
            rcases h2 hbr with ⟨u, w, hu⟩
            refine ⟨beginTok e ++ body ++ endTok e ++ u, w, ?_⟩
            rw [hd, hu]
            simp
      | none =>
        rw [htry] at h
        by_cases hbra : bracketOpen.isPrefixOf (c :: rest) = true
        · rw [if_pos hbra] at h
          cases hs : splitFirstTok bracketClose ((c :: rest).drop 2) with
          | some body_after =>
            rw [hs] at h
            rcases List.mem_cons.mp h with hhead | htail
            · have henv : r.env = chars "brackets" := by rw [hhead]
              have hraw : r.rawBody = body_after.1 := by rw [hhead]
              constructor
              · intro hne; exact absurd henv hne
              · intro _
                rcases List.isPrefixOf_iff_prefix.mp hbra with ⟨t, ht⟩
                have hdrop : (c :: rest).drop 2 = t := by
                  rw [← ht]
                  exact List.drop_left bracketOpen t
                have hsp := splitFirstTok_sound bracketClose _ _ _
                  (by rw [hs] : splitFirstTok bracketClose ((c :: rest).drop 2) =
                    some (body_after.1, body_after.2))
                rw [hdrop] at hsp
                refine ⟨[], body_after.2, ?_⟩
                rw [hraw, ← ht, hsp]
                simp
            · rcases ih _ body_after.2 r htail with ⟨h1, h2⟩
              rcases List.isPrefixOf_iff_prefix.mp hbra with ⟨t, ht⟩
              have hdrop : (c :: rest).drop 2 = t := by
                rw [← ht]
                exact List.drop_left bracketOpen t
              have hsp := splitFirstTok_sound bracketClose _ _ _
                (by rw [hs] : splitFirstTok bracketClose ((c :: rest).drop 2) =
                  some (body_after.1, body_after.2))
              rw [hdrop] at hsp
              have hfull : c :: rest =
                  bracketOpen ++ body_after.1 ++ bracketClose ++ body_after.2 := by
                rw [← ht, hsp]
                simp
              constructor
              · intro hne
                rcases h1 hne with ⟨u, w, hu⟩
                refine ⟨bracketOpen ++ body_after.1 ++ bracketClose ++ u, w, ?_⟩
                rw [hfull, hu]
                simp
              · intro hbr
                rcases h2 hbr with ⟨u, w, hu⟩
                refine ⟨bracketOpen ++ body_after.1 ++ bracketClose ++ u, w, ?_⟩
                rw [hfull, hu]
                simp
          | none =>
            rw [hs] at h
            rcases ih _ rest r h with ⟨h1, h2⟩
            constructor
            · intro hne
              rcases h1 hne with ⟨u, w, hu⟩
              exact ⟨c :: u, w, by rw [hu]; simp⟩
            · intro hbr
              rcases h2 hbr with ⟨u, w, hu⟩
              exact ⟨c :: u, w, by rw [hu]; simp⟩
        · rw [if_neg hbra] at h
          rcases ih _ rest r h with ⟨h1, h2⟩
          constructor
          · intro hne
            rcases h1 hne with ⟨u, w, hu⟩
            exact ⟨c :: u, w, by rw [hu]; simp⟩
          · intro hbr
            rcases h2 hbr with ⟨u, w, hu⟩
            exact ⟨c :: u, w, by rw [hu]; simp⟩

theorem mkEqRec_fields (cp : List Nat) (raw : RawEq) (r : EqRec)
    (h : mkEqRec cp raw = some r) : r.env = raw.env ∧ r.rawBody = raw.rawBody := by
  rw [mkEqRec] at h
  by_cases hc : stripTrailingPunctuation (normalizeEquationBody
      (subRemoveTags ((subRemoveLabels (raw.rawBody.length + 1) raw.rawBody).length + 1)
        (subRemoveLabels (raw.rawBody.length + 1) raw.rawBody))) = []
  · rw [if_pos hc] at h
    exact Option.noConfusion h
  · rw [if_neg hc] at h
    have := Option.some.inj h
    rw [← this]
    exact ⟨rfl, rfl⟩

/-- C7: every record the locator emits pairs `\begin{X}` with `\end{X}` for
the same name X — each non-bracket record decomposes the text around
identically named begin/end tokens (and each bracket record around `\[`/`\]`);
a mismatched `\begin{align}...\end{equation}` alone yields no record. -/
theorem c7_same_name_pairing (text : List Char) (r : EqRec)
    (hr : r ∈ findEquations text) :
    (r.env ≠ chars "brackets" →
      ∃ u w, text = u ++ beginTok r.env ++ r.rawBody ++ endTok r.env ++ w) ∧
    (r.env = chars "brackets" →
      ∃ u w, text = u ++ bracketOpen ++ r.rawBody ++ bracketClose ++ w) ∧
    findEquations (chars "\\begin{align} x=1 \\end{equation}") = [] := by
  rcases List.mem_filterMap.mp hr with ⟨raw, hraws, hmk⟩
  rcases mkEqRec_fields _ raw r hmk with ⟨henv, hraw⟩
  have hd := scanEquations_decomp (text.length + 1) 0 text raw hraws
  refine ⟨?_, ?_, by decide⟩
  · intro hne
    rw [henv, hraw]
    exact hd.1 (by rw [← henv]; exact hne)
  · intro hbr
    rw [hraw]
    exact hd.2 (by rw [← henv]; exact hbr)

theorem c7_same_name_pairing_witness :
    ∃ u w, chars "\\begin{equation}a=b\\end{equation}" =
      u ++ beginTok (chars "equation") ++ chars "a=b" ++
        endTok (chars "equation") ++ w := by
  have h := c7_same_name_pairing (chars "\\begin{equation}a=b\\end{equation}")
    { env := chars "equation", rawBody := chars "a=b", cleanBody := chars "a=b",
      start := 16, stop := 19, hasLabel := false, labelName := none,
      hasTag := false, tagText := none, isStarred := false, chapterIndex := none }
    (by decide)
  exact h.1 (by decide)

theorem fsWeight_mono (fs : FileSys) (v v' : List Nat) (h : ∀ x ∈ v, x ∈ v') :
    fsWeight fs v' ≤ fsWeight fs v := by
  rw [fsWeight, fsWeight]
  apply List.sum_le_sum
  intro p _
  by_cases hp : p.1 ∈ v
  · simp [hp, h p.1 hp]
  · by_cases hp' : p.1 ∈ v'
    · simp [hp, hp']
    · simp [hp, hp']

theorem fsWeight_cons (p : Nat × List FlatTok) (t : FileSys) (v : List Nat) :
    fsWeight (p :: t) v = (if p.1 ∈ v then 0 else p.2.length + 2) + fsWeight t v := by
  rw [fsWeight, fsWeight, List.map_cons, List.sum_cons]

theorem fsWeight_gap :
    ∀ (fs : FileSys) (f : Nat) (v : List Nat) (content : List FlatTok),
      f ∉ v → fs.lookup f = some content →
      content.length + 2 + fsWeight fs (f :: v) ≤ fsWeight fs v := by
  intro fs
  induction fs with
  | nil => intro f v content _ h; simp [List.lookup] at h
  | cons p t ih =>
    intro f v content hfv hl
    rw [List.lookup] at hl
    rw [fsWeight_cons, fsWeight_cons]
    cases hb : f == p.1 with
    | true =>
      rw [hb] at hl
      have hfp : f = p.1 := eq_of_beq hb
      have hcontent : content = p.2 := (Option.some.inj hl).symm
      have h1 : p.1 ∈ f :: v := by rw [hfp]; exact List.mem_cons_self _ _
      have h2 : p.1 ∉ v := by rw [← hfp]; exact hfv
      rw [if_pos h1, if_neg h2, hcontent]
      have hmono : fsWeight t (f :: v) ≤ fsWeight t v :=
        fsWeight_mono t v (f :: v) (fun x hx => List.mem_cons_of_mem _ hx)
      omega
    | false =>
      rw [hb] at hl
      have hfp : f ≠ p.1 := by
        intro hc
        rw [hc] at hb
        simp at hb
      have hsame : (p.1 ∈ f :: v) ↔ (p.1 ∈ v) := by
        constructor
        · intro hc
          rcases List.mem_cons.mp hc with hc | hc
          · exact absurd hc.symm hfp
          · exact hc
        · exact fun hc => List.mem_cons_of_mem _ hc
      have := ih f v content hfv hl
      by_cases hp : p.1 ∈ v
      · rw [if_pos (hsame.mpr hp), if_pos hp]
        omega
      · rw [if_neg (fun hc => hp (hsame.mp hc)), if_neg hp]
        omega

theorem expandToks_visited :
    ∀ fuel (fs : FileSys) toks v out v' ev,
      expandToks fs fuel toks v = some (out, v', ev) →
      ∃ extra, v' = extra ++ v ∧ extra.Nodup ∧ (∀ x ∈ extra, x ∉ v) ∧
        ev.Sublist extra.reverse := by
  intro fuel
  induction fuel with
  | zero => intro fs toks v out v' ev h; exact Option.noConfusion h
  | succ f ih =>
    intro fs toks v out v' ev h
    match toks with
    | [] =>
      rw [expandToks] at h
      have hinj := Option.some.inj h
      have hv : v = v' := congrArg (fun x => x.2.1) hinj
      have he : ([] : List Nat) = ev := congrArg (fun x => x.2.2) hinj
      exact ⟨[], by rw [← hv]; simp, List.nodup_nil, by simp, by rw [← he]; simp⟩
    | FlatTok.lit s :: rest =>
      rw [expandToks] at h
      cases hr : expandToks fs f rest v with
      | none => rw [hr] at h; exact Option.noConfusion h
      | some r =>
        rw [hr] at h
        have hinj := Option.some.inj h
        have hv : r.2.1 = v' := congrArg (fun x => x.2.1) hinj
        have he : r.2.2 = ev := congrArg (fun x => x.2.2) hinj
        rcases ih fs rest v r.1 r.2.1 r.2.2 (by rw [hr]) with ⟨extra, hx1, hx2, hx3, hx4⟩
        exact ⟨extra, by rw [← hv, hx1], hx2, hx3, by rw [← he]; exact hx4⟩
    | FlatTok.incl g orig :: rest =>
      rw [expandToks] at h
      by_cases hgv : g ∈ v
      · rw [if_pos hgv] at h
        exact ih fs rest v out v' ev h
      · rw [if_neg hgv] at h
        cases hl : fs.lookup g with
        | none =>
          simp only [hl] at h
          cases hr : expandToks fs f rest v with
          | none => rw [hr] at h; exact Option.noConfusion h
          | some r =>
            rw [hr] at h
            have hinj := Option.some.inj h
            have hv : r.2.1 = v' := congrArg (fun x => x.2.1) hinj
            have he : r.2.2 = ev := congrArg (fun x => x.2.2) hinj
            rcases ih fs rest v r.1 r.2.1 r.2.2 (by rw [hr]) with ⟨extra, hx1, hx2, hx3, hx4⟩
            exact ⟨extra, by rw [← hv, hx1], hx2, hx3, by rw [← he]; exact hx4⟩
        | some content =>
          cases h1 : expandToks fs f content (g :: v) with
          | none =>
            simp only [hl, h1] at h
            exact Option.noConfusion h
          | some r1 =>
            obtain ⟨sub, v1, ev1⟩ := r1
            cases h2 : expandToks fs f rest v1 with
            | none =>
              simp only [hl, h1, h2] at h
              exact Option.noConfusion h
            | some r2 =>
              obtain ⟨o2, v2, ev2⟩ := r2
              simp only [hl, h1, h2, Option.some.injEq, Prod.mk.injEq] at h
              obtain ⟨_, hv, he⟩ := h
              rcases ih fs content (g :: v) sub v1 ev1 h1 with
                ⟨x1, hx11, hx12, hx13, hx14⟩
              rcases ih fs rest v1 o2 v2 ev2 h2 with
                ⟨x2, hx21, hx22, hx23, hx24⟩
              refine ⟨x2 ++ x1 ++ [g], ?_, ?_, ?_, ?_⟩
              · rw [← hv, hx21, hx11]
                simp
              · rw [List.nodup_append]
                refine ⟨?_, by simp [hgv], ?_⟩
                · rw [List.nodup_append]
                  refine ⟨hx22, hx12, ?_⟩
                  intro a ha hb
                  have : a ∈ v1 := by
                    rw [hx11]
                    exact List.mem_append_left _ hb
                  exact hx23 a ha this
                · intro a ha
                  simp only [List.mem_singleton]
                  intro hag
                  rcases List.mem_append.mp ha with ha2 | ha1
                  · have : a ∈ v1 := by
                      rw [hx11, hag]
                      exact List.mem_append_right _ (List.mem_cons_self _ _)
                    exact hx23 a ha2 this
                  · have : a ∈ g :: v := by rw [hag]; exact List.mem_cons_self _ _
                    exact hx13 a ha1 this
              · intro x hx
                rcases List.mem_append.mp hx with hx' | hxg
                · rcases List.mem_append.mp hx' with hx2' | hx1'
                  · intro hxv
                    have : x ∈ v1 := by
                      rw [hx11]
                      exact List.mem_append_right _ (List.mem_cons_of_mem _ hxv)
                    exact hx23 x hx2' this
                  · intro hxv
                    exact hx13 x hx1' (List.mem_cons_of_mem _ hxv)
                · rw [List.mem_singleton] at hxg
                  rw [hxg]
                  exact hgv
              · rw [← he]
                have hrw : (x2 ++ x1 ++ [g]).reverse = g :: (x1.reverse ++ x2.reverse) := by
                  simp
                rw [hrw]
                exact List.Sublist.cons₂ g (List.Sublist.append hx14 hx24)

theorem combineRun_visited :
    ∀ fuel (fs : FileSys) call v out v' ev,
      combineRun fs fuel call v = some (out, v', ev) →
      ∃ extra, v' = extra ++ v ∧ extra.Nodup ∧ (∀ x ∈ extra, x ∉ v) ∧
        ev.Sublist extra.reverse := by
  intro fuel
  induction fuel with
  | zero => intro fs call v out v' ev h; exact Option.noConfusion h
  | succ f ih =>
    intro fs call v out v' ev h
    match call with
    | CombineCall.file g =>
      rw [combineRun] at h
      by_cases hgv : g ∈ v
      · rw [if_pos hgv] at h
        have hinj := Option.some.inj h
        have hv : v = v' := congrArg (fun x => x.2.1) hinj
        have he : ([] : List Nat) = ev := congrArg (fun x => x.2.2) hinj
        exact ⟨[], by rw [← hv]; simp, List.nodup_nil, by simp, by rw [← he]; simp⟩
      · rw [if_neg hgv] at h
        cases hl : fs.lookup g with
        | none =>
          simp only [hl] at h
          have hinj := Option.some.inj h
          have hv : g :: v = v' := congrArg (fun x => x.2.1) hinj
          have he : ([] : List Nat) = ev := congrArg (fun x => x.2.2) hinj
          exact ⟨[g], by rw [← hv]; simp, List.nodup_singleton g,
            by simpa using hgv, by rw [← he]; simp⟩
        | some content =>
          cases h1 : combineRun fs f (CombineCall.toks content) (g :: v) with
          | none =>
            simp only [hl, h1] at h
            exact Option.noConfusion h
          | some r1 =>
            simp only [hl, h1, Option.map_some] at h
            have hinj := Option.some.inj h
            have hv : r1.2.1 = v' := congrArg (fun x => x.2.1) hinj
            have he : g :: r1.2.2 = ev := congrArg (fun x => x.2.2) hinj
            rcases ih fs (CombineCall.toks content) (g :: v) r1.1 r1.2.1 r1.2.2
              (by rw [h1]) with ⟨x1, hx11, hx12, hx13, hx14⟩
            refine ⟨x1 ++ [g], ?_, ?_, ?_, ?_⟩
            · rw [← hv, hx11]
              simp
            · rw [List.nodup_append]
              refine ⟨hx12, List.nodup_singleton g, ?_⟩
              intro a ha
              simp only [List.mem_singleton]
              intro hag
              exact hx13 a ha (by rw [hag]; exact List.mem_cons_self _ _)
            · intro x hx
              rcases List.mem_append.mp hx with hx1' | hxg
              · intro hxv
                exact hx13 x hx1' (List.mem_cons_of_mem _ hxv)
              · rw [List.mem_singleton] at hxg
                rw [hxg]
                exact hgv
            · rw [← he]
              have hrw : (x1 ++ [g]).reverse = g :: x1.reverse := by simp
              rw [hrw]
              exact List.Sublist.cons₂ g hx14
    | CombineCall.toks [] =>
      rw [combineRun] at h
      have hinj := Option.some.inj h
      have hv : v = v' := congrArg (fun x => x.2.1) hinj
      have he : ([] : List Nat) = ev := congrArg (fun x => x.2.2) hinj
      exact ⟨[], by rw [← hv]; simp, List.nodup_nil, by simp, by rw [← he]; simp⟩
    | CombineCall.toks (FlatTok.lit s :: rest) =>
      rw [combineRun] at h
      cases hr : combineRun fs f (CombineCall.toks rest) v with
      | none => rw [hr] at h; exact Option.noConfusion h
      | some r =>
        rw [hr] at h
        have hinj := Option.some.inj h
        have hv : r.2.1 = v' := congrArg (fun x => x.2.1) hinj
        have he : r.2.2 = ev := congrArg (fun x => x.2.2) hinj
        rcases ih fs (CombineCall.toks rest) v r.1 r.2.1 r.2.2 (by rw [hr]) with
          ⟨extra, hx1, hx2, hx3, hx4⟩
        exact ⟨extra, by rw [← hv, hx1], hx2, hx3, by rw [← he]; exact hx4⟩
    | CombineCall.toks (FlatTok.incl g orig :: rest) =>
      rw [combineRun] at h
      cases hl : fs.lookup g with
      | none =>
        simp only [hl] at h
        cases hr : combineRun fs f (CombineCall.toks rest) v with
        | none => rw [hr] at h; exact Option.noConfusion h
        | some r =>
          rw [hr] at h
          have hinj := Option.some.inj h
          have hv : r.2.1 = v' := congrArg (fun x => x.2.1) hinj
          have he : r.2.2 = ev := congrArg (fun x => x.2.2) hinj
          rcases ih fs (CombineCall.toks rest) v r.1 r.2.1 r.2.2 (by rw [hr]) with
            ⟨extra, hx1, hx2, hx3, hx4⟩
          exact ⟨extra, by rw [← hv, hx1], hx2, hx3, by rw [← he]; exact hx4⟩
      | some content =>
        cases h1 : combineRun fs f (CombineCall.file g) v with
        | none =>
          simp only [hl, h1] at h
          exact Option.noConfusion h
        | some r1 =>
          obtain ⟨sub, v1, ev1⟩ := r1
          cases h2 : combineRun fs f (CombineCall.toks rest) v1 with
          | none =>
            simp only [hl, h1, h2] at h
            exact Option.noConfusion h
          | some r2 =>
            obtain ⟨o2, v2, ev2⟩ := r2
            simp only [hl, h1, h2, Option.some.injEq, Prod.mk.injEq] at h
            obtain ⟨_, hv, he⟩ := h
            rcases ih fs (CombineCall.file g) v sub v1 ev1 h1 with
              ⟨x1, hx11, hx12, hx13, hx14⟩
            rcases ih fs (CombineCall.toks rest) v1 o2 v2 ev2 h2 with
              ⟨x2, hx21, hx22, hx23, hx24⟩
            refine ⟨x2 ++ x1, ?_, ?_, ?_, ?_⟩
            · rw [← hv, hx21, hx11]
              simp
            · rw [List.nodup_append]
              refine ⟨hx22, hx12, ?_⟩
              intro a ha hb
              have : a ∈ v1 := by
                rw [hx11]
                exact List.mem_append_left _ hb
              exact hx23 a ha this
            · intro x hx
              rcases List.mem_append.mp hx with hx2' | hx1'
              · intro hxv
                have : x ∈ v1 := by
                  rw [hx11]
                  exact List.mem_append_right _ hxv
                exact hx23 x hx2' this
              · exact hx13 x hx1'
            · rw [← he, List.reverse_append]
              exact List.Sublist.append hx14 hx24

theorem expandToks_sufficient :
    ∀ fuel (fs : FileSys) toks v,
      toks.length + 2 + fsWeight fs v ≤ fuel →
      (expandToks fs fuel toks v).isSome = true := by
  intro fuel
  induction fuel with
  | zero => intro fs toks v h; omega
  | succ f ih =>
    intro fs toks v h
    match toks with
    | [] => rw [expandToks]; rfl
    | FlatTok.lit s :: rest =>
      rw [expandToks]
      have hs := ih fs rest v (by simp at h ⊢; omega)
      cases hr : expandToks fs f rest v with
      | none => rw [hr] at hs; simp at hs
      | some r => rfl
    | FlatTok.incl g orig :: rest =>
      rw [expandToks]
      by_cases hgv : g ∈ v
      · rw [if_pos hgv]
        exact ih fs rest v (by simp at h ⊢; omega)
      · rw [if_neg hgv]
        cases hl : fs.lookup g with
        | none =>
          have hs := ih fs rest v (by simp at h ⊢; omega)
          cases hr : expandToks fs f rest v with
          | none => rw [hr] at hs; simp at hs
          | some r => rfl
        | some content =>
          have hgap := fsWeight_gap fs g v content hgv hl
          have hs1 := ih fs content (g :: v) (by simp at h ⊢; omega)
          cases h1 : expandToks fs f content (g :: v) with
          | none => rw [h1] at hs1; simp at hs1
          | some r1 =>
            obtain ⟨sub, v1, ev1⟩ := r1
            rcases expandToks_visited f fs content (g :: v) sub v1 ev1 h1 with
              ⟨x1, hx11, _, _, _⟩
            have hsub : ∀ x ∈ v, x ∈ v1 := by
              intro x hx
              rw [hx11]
              exact List.mem_append_right _ (List.mem_cons_of_mem _ hx)
            have hmono : fsWeight fs v1 ≤ fsWeight fs v := fsWeight_mono fs v v1 hsub
            have hs2 := ih fs rest v1 (by simp at h ⊢; omega)
            cases h2 : expandToks fs f rest v1 with
            | none => rw [h2] at hs2; simp at hs2
            | some r2 =>
              obtain ⟨o2, v2, ev2⟩ := r2
              simp only [hl, h1, h2]
              rfl

theorem combineRun_sufficient :
    ∀ fuel (fs : FileSys) call v,
      (match call with
       | CombineCall.file _ => 2 + fsWeight fs v
       | CombineCall.toks ts => ts.length + 2 + fsWeight fs v) ≤ fuel →
      (combineRun fs fuel call v).isSome = true := by
  intro fuel
  induction fuel with
  | zero =>
    intro fs call v h
    match call with
    | CombineCall.file g => simp at h
    | CombineCall.toks ts => simp at h
  | succ f ih =>
    intro fs call v h
    match call with
    | CombineCall.file g =>
      rw [combineRun]
      by_cases hgv : g ∈ v
      · rw [if_pos hgv]; rfl
      · rw [if_neg hgv]
        cases hl : fs.lookup g with
        | none => simp only [hl]; rfl
        | some content =>
          have hgap := fsWeight_gap fs g v content hgv hl
          have hs1 := ih fs (CombineCall.toks content) (g :: v) (by simp at h ⊢; omega)
          cases h1 : combineRun fs f (CombineCall.toks content) (g :: v) with
          | none => rw [h1] at hs1; simp at hs1
          | some r1 =>
            simp only [hl, h1]
            rfl
    | CombineCall.toks [] => rw [combineRun]; rfl
    | CombineCall.toks (FlatTok.lit s :: rest) =>
      rw [combineRun]
      have hs := ih fs (CombineCall.toks rest) v (by simp at h ⊢; omega)
      cases hr : combineRun fs f (CombineCall.toks rest) v with
      | none => rw [hr] at hs; simp at hs
      | some r => rfl
    | CombineCall.toks (FlatTok.incl g orig :: rest) =>
      rw [combineRun]
      cases hl : fs.lookup g with
      | none =>
        have hs := ih fs (CombineCall.toks rest) v (by simp at h ⊢; omega)
        cases hr : combineRun fs f (CombineCall.toks rest) v with
        | none => rw [hr] at hs; simp at hs
        | some r => rfl
      | some content =>
        have hs1 := ih fs (CombineCall.file g) v (by simp at h ⊢; omega)
        cases h1 : combineRun fs f (CombineCall.file g) v with
        | none => rw [h1] at hs1; simp at hs1
        | some r1 =>
          obtain ⟨sub, v1, ev1⟩ := r1
          rcases combineRun_visited f fs (CombineCall.file g) v sub v1 ev1 h1 with
            ⟨x1, hx11, _, _, _⟩
          have hsub : ∀ x ∈ v, x ∈ v1 := by
            intro x hx
            rw [hx11]
            exact List.mem_append_right _ hx
          have hmono : fsWeight fs v1 ≤ fsWeight fs v := fsWeight_mono fs v v1 hsub
          have hs2 := ih fs (CombineCall.toks rest) v1 (by simp at h ⊢; omega)
          cases h2 : combineRun fs f (CombineCall.toks rest) v1 with
          | none => rw [h2] at hs2; simp at hs2
          | some r2 =>
            obtain ⟨o2, v2, ev2⟩ := r2
            simp only [hl, h1, h2]
            rfl

/-- The root file's own token list in the two-file cycle. -/
def rootToksAB : List FlatTok :=
  [FlatTok.lit (chars "a1"), FlatTok.incl 1 (chars "\\input{B}"),
   FlatTok.lit (chars "a2")]

/-- C1 counterexample: in the cycle 0 ↔ 1, `expand_inputs` starting from
file 0 duplicates the root's content — the root is never marked visited, so
the cycle back to it splices its text a second time ("a1" appears twice), and
the root id 0 itself occurs in the splice trace. -/
theorem c1_counterexample :
    (expandInputsRun fsCycleAB rootToksAB).map (fun r => r.1) =
      some (chars "a1b1a1a2b2a2") ∧
    countTokOcc (chars "a1") (chars "a1b1a1a2b2a2") = 2 ∧
    (expandInputsRun fsCycleAB rootToksAB).map (fun r => r.2.2) = some [1, 0] := by
  decide

/-- C1 (amended): on every include graph — the two-file cycle included —
both flatteners terminate, and each file's content is spliced at most once
(the splice trace has no duplicates); in `CombineTex.expand` the root is
marked visited so no content at all is duplicated, while in `expand_inputs`
the root file is never marked visited, so a cycle back to the root splices
the root's own content one extra time (see the counterexample). -/
theorem c1_cycle_flattening (fs : FileSys) (rootToks : List FlatTok) (root : Nat) :
    (expandInputsRun fs rootToks).isSome = true ∧
    (combineTexRun fs root).isSome = true ∧
    (∀ out v ev, expandInputsRun fs rootToks = some (out, v, ev) → ev.Nodup) ∧
    (∀ out v ev, combineTexRun fs root = some (out, v, ev) → ev.Nodup) := by
  refine ⟨?_, ?_, ?_, ?_⟩
  · exact expandToks_sufficient _ fs rootToks [] le_rfl
  · exact combineRun_sufficient _ fs (CombineCall.file root) [] le_rfl
  · intro out v ev h
    rcases expandToks_visited _ fs rootToks [] out v ev h with ⟨extra, _, hnd, _, hsub⟩
    exact hsub.nodup (List.nodup_reverse.mpr hnd)
  · intro out v ev h
    rcases combineRun_visited _ fs (CombineCall.file root) [] out v ev h with
      ⟨extra, _, hnd, _, hsub⟩
    exact hsub.nodup (List.nodup_reverse.mpr hnd)

theorem c1_cycle_flattening_witness : ([1, 0] : List Nat).Nodup :=
  (c1_cycle_flattening fsCycleAB rootToksAB 0).2.2.1 (chars "a1b1a1a2b2a2")
    [0, 1] [1, 0] (by decide)

/-- An acyclic project: the root includes file 1 twice. -/
def fsDiamond : FileSys := [(1, [FlatTok.lit (chars "b")])]

/-- Root token list including file 1 twice. -/
def diamondRoot : List FlatTok :=
  [FlatTok.lit (chars "x"), FlatTok.incl 1 (chars "\\input{b}"),
   FlatTok.lit (chars "y"), FlatTok.incl 1 (chars "\\input{b}"),
   FlatTok.lit (chars "z")]

/-- C9: both flatteners inline each distinct target file at most once over the
whole run — the splice trace never repeats a file and never revisits an
already-visited one — and a second `\input` of the same target is replaced by
empty text: the double inclusion of file 1 yields "xbyz", with file 1's
content "b" spliced exactly once. -/
theorem c9_each_file_inlined_once (fs : FileSys) :
    (∀ fuel toks v out v' ev, expandToks fs fuel toks v = some (out, v', ev) →
      ev.Nodup ∧ ∀ x ∈ ev, x ∉ v) ∧
    (∀ fuel call v out v' ev, combineRun fs fuel call v = some (out, v', ev) →
      ev.Nodup ∧ ∀ x ∈ ev, x ∉ v) ∧
    (expandInputsRun fsDiamond diamondRoot).map (fun r => r.1) =
      some (chars "xbyz") ∧
    (expandInputsRun fsDiamond diamondRoot).map (fun r => r.2.2) = some [1] := by
  refine ⟨?_, ?_, by decide, by decide⟩
  · intro fuel toks v out v' ev h
    rcases expandToks_visited fuel fs toks v out v' ev h with
      ⟨extra, _, hnd, hdisj, hsub⟩
    refine ⟨hsub.nodup (List.nodup_reverse.mpr hnd), ?_⟩
    intro x hx
    exact hdisj x (List.mem_reverse.mp (hsub.subset hx))
  · intro fuel call v out v' ev h
    rcases combineRun_visited fuel fs call v out v' ev h with
      ⟨extra, _, hnd, hdisj, hsub⟩
    refine ⟨hsub.nodup (List.nodup_reverse.mpr hnd), ?_⟩
    intro x hx
    exact hdisj x (List.mem_reverse.mp (hsub.subset hx))

theorem c9_each_file_inlined_once_witness :
    ([1] : List Nat).Nodup ∧ ∀ x ∈ ([1] : List Nat), x ∉ ([] : List Nat) :=
  (c9_each_file_inlined_once fsDiamond).1 10 diamondRoot [] (chars "xbyz")
    [1] [1] (by decide)

/-!
## Characterization of the unescaped-percent scanner (for C5, C6)
-/

/-- The backslash run the scanner carries at position `p` when started with
run `run`: for a position still inside a leading all-backslash prefix the
initial run is added. -/
def effRun (run : Nat) (l : List Char) (p : Nat) : Nat :=
  if (l.take p).all (· = '\\') then run + p else bsRunBefore l p

theorem takeWhile_append_all {p : Char → Bool} (a b : List Char) :
    (a ++ b).takeWhile p =
      if a.all p then a ++ b.takeWhile p else a.takeWhile p := by
  induction a with
  | nil => simp
  | cons c t ih =>
    by_cases hc : p c
    · simp only [List.cons_append, List.takeWhile_cons, hc, List.all_cons, ih]
      by_cases ht : t.all p
      · simp [ht]
      · simp [ht, hc]
    · simp [List.takeWhile_cons, hc, List.all_cons]

theorem bsRunBefore_cons (c : Char) (rest : List Char) (j : Nat) :
    bsRunBefore (c :: rest) (j + 1) =
      if ((rest.take j).all (· = '\\')) && (c = '\\') then
        bsRunBefore rest j + 1
      else bsRunBefore rest j := by
  rw [bsRunBefore, bsRunBefore, List.take_succ_cons, List.reverse_cons,
    takeWhile_append_all]
  by_cases hall : ((rest.take j).reverse).all (· = '\\')
  · have hall' : ((rest.take j)).all (· = '\\') = true := by
      rw [← List.all_reverse]
      exact hall
    have hts : (rest.take j).reverse.takeWhile (· = '\\') = (rest.take j).reverse :=
      List.takeWhile_eq_self_iff.mpr (by simpa using hall)
    by_cases hc : c = '\\'
    · have h1 : List.takeWhile (· = '\\') [c] = [c] := by simp [hc]
      rw [if_pos hall, h1, if_pos (by simp [hall', hc]), hts]
      simp
    · have h1 : List.takeWhile (· = '\\') [c] = [] := by simp [hc]
      rw [if_pos hall, h1, if_neg (by simp [hc]), hts]
      simp
  · have hall' : ((rest.take j)).all (· = '\\') = false := by
      rw [← List.all_reverse]
      exact Bool.eq_false_iff.mpr hall
    rw [if_neg hall, if_neg (by simp [hall'])]

theorem get?_lt_length {l : List Char} {n : Nat} {a : Char} (h : l.get? n = some a) :
    n < l.length := by
  by_contra hc
  rw [List.get?_eq_none.mpr (le_of_not_lt hc)] at h
  exact Option.noConfusion h

theorem effRun_cons (run : Nat) (c : Char) (rest : List Char) (j : Nat)
    (hj : j ≤ rest.length) :
    effRun run (c :: rest) (j + 1) = effRun (if c = '\\' then run + 1 else 0) rest j := by
  rw [effRun, effRun, List.take_succ_cons, List.all_cons]
  by_cases hc : c = '\\'
  · rw [if_pos hc]
    by_cases hall : (rest.take j).all (· = '\\')
    · rw [if_pos (by simp [hc, hall]), if_pos hall]
      omega
    · rw [if_neg (by simp [hall]), if_neg hall, bsRunBefore_cons,
        if_neg (by simp [hall])]
  · rw [if_neg hc]
    rw [if_neg (by simp [hc]), bsRunBefore_cons, if_neg (by simp [hc])]
    by_cases hall : (rest.take j).all (· = '\\')
    · rw [if_pos hall]
      rw [bsRunBefore]
      have h1 : (rest.take j).reverse.takeWhile (· = '\\') = (rest.take j).reverse :=
        List.takeWhile_eq_self_iff.mpr (by simpa using hall)
      rw [h1, List.length_reverse, List.length_take]
      omega
    · rw [if_neg hall]

theorem fup_some_spec :
    ∀ (l : List Char) run k, findUnescapedPercent l run = some k →
      l.get? k = some '%' ∧ effRun run l k % 2 = 0 ∧
        ∀ j < k, l.get? j = some '%' → effRun run l j % 2 = 1 := by
  intro l
  induction l with
  | nil => intro run k h; exact Option.noConfusion h
  | cons c rest ih =>
    intro run k h
    rw [findUnescapedPercent] at h
    by_cases hc : c = '%'
    · rw [if_pos hc] at h
      by_cases hrun : run % 2 = 0
      · rw [if_pos hrun] at h
        have hk : k = 0 := (Option.some.inj h).symm
        subst hk
        refine ⟨by rw [hc]; rfl, ?_, by omega⟩
        have : effRun run (c :: rest) 0 = run := by
          rw [effRun]
          simp
        rw [this]
        exact hrun
      · rw [if_neg hrun] at h
        cases hr : findUnescapedPercent rest 0 with
        | none => rw [hr] at h; exact Option.noConfusion h
        | some k' =>
          rw [hr] at h
          have hk : k = k' + 1 := (Option.some.inj h).symm
          subst hk
          rcases ih 0 k' hr with ⟨hg, he, hearlier⟩
          have hk'len : k' < rest.length := get?_lt_length hg
          have hcns : (if c = '\\' then run + 1 else 0) = 0 := by
            rw [if_neg (by rw [hc]; decide)]
          refine ⟨by simpa using hg, ?_, ?_⟩
          · rw [effRun_cons run c rest k' (le_of_lt hk'len), hcns]
            exact he
          · intro j hj hgj
            match j with
            | 0 =>
              have : effRun run (c :: rest) 0 = run := by rw [effRun]; simp
              rw [this]
              omega
            | j' + 1 =>
              have hgj' : rest.get? j' = some '%' := by simpa using hgj
              have hj'len : j' < rest.length := get?_lt_length hgj'
              rw [effRun_cons run c rest j' (le_of_lt hj'len), hcns]
              exact hearlier j' (by omega) hgj'
    · rw [if_neg hc] at h
      by_cases hbs : c = '\\'
      · rw [if_pos hbs] at h
        cases hr : findUnescapedPercent rest (run + 1) with
        | none => rw [hr] at h; exact Option.noConfusion h
        | some k' =>
          rw [hr] at h
          have hk : k = k' + 1 := (Option.some.inj h).symm
          subst hk
          rcases ih (run + 1) k' hr with ⟨hg, he, hearlier⟩
          have hk'len : k' < rest.length := get?_lt_length hg
          have hcns : (if c = '\\' then run + 1 else 0) = run + 1 := if_pos hbs
          refine ⟨by simpa using hg, ?_, ?_⟩
          · rw [effRun_cons run c rest k' (le_of_lt hk'len), hcns]
            exact he
          · intro j hj hgj
            match j with
            | 0 =>
              exfalso
              have : c = '%' := by simpa using hgj
              exact hc this
            | j' + 1 =>
              have hgj' : rest.get? j' = some '%' := by simpa using hgj
              have hj'len : j' < rest.length := get?_lt_length hgj'
              rw [effRun_cons run c rest j' (le_of_lt hj'len), hcns]
              exact hearlier j' (by omega) hgj'
      · rw [if_neg hbs] at h
        cases hr : findUnescapedPercent rest 0 with
        | none => rw [hr] at h; exact Option.noConfusion h
        | some k' =>
          rw [hr] at h
          have hk : k = k' + 1 := (Option.some.inj h).symm
          subst hk
          rcases ih 0 k' hr with ⟨hg, he, hearlier⟩
          have hk'len : k' < rest.length := get?_lt_length hg
          have hcns : (if c = '\\' then run + 1 else 0) = 0 := if_neg hbs
          refine ⟨by simpa using hg, ?_, ?_⟩
          · rw [effRun_cons run c rest k' (le_of_lt hk'len), hcns]
            exact he
          · intro j hj hgj
            match j with
            | 0 =>
              exfalso
              have : c = '%' := by simpa using hgj
              exact hc this
            | j' + 1 =>
              have hgj' : rest.get? j' = some '%' := by simpa using hgj
              have hj'len : j' < rest.length := get?_lt_length hgj'
              rw [effRun_cons run c rest j' (le_of_lt hj'len), hcns]
              exact hearlier j' (by omega) hgj'

theorem fup_none_spec :
    ∀ (l : List Char) run, findUnescapedPercent l run = none →
      ∀ j, l.get? j = some '%' → effRun run l j % 2 = 1 := by
  intro l
  induction l with
  | nil =>
    intro run _ j hj
    simp at hj
  | cons c rest ih =>
    intro run h j hj
    rw [findUnescapedPercent] at h
    by_cases hc : c = '%'
    · rw [if_pos hc] at h
      by_cases hrun : run % 2 = 0
      · rw [if_pos hrun] at h
        exact Option.noConfusion h
      · rw [if_neg hrun] at h
        cases hr : findUnescapedPercent rest 0 with
        | some k' => rw [hr] at h; exact Option.noConfusion h
        | none =>
          match j with
          | 0 =>
            have : effRun run (c :: rest) 0 = run := by rw [effRun]; simp
            rw [this]
            omega
          | j' + 1 =>
            have hgj' : rest.get? j' = some '%' := by simpa using hj
            have hj'len : j' < rest.length := get?_lt_length hgj'
            rw [effRun_cons run c rest j' (le_of_lt hj'len), if_neg (by rw [hc]; decide)]
            exact ih 0 hr j' hgj'
    · rw [if_neg hc] at h
      by_cases hbs : c = '\\'
      · rw [if_pos hbs] at h
        cases hr : findUnescapedPercent rest (run + 1) with
        | some k' => rw [hr] at h; exact Option.noConfusion h
        | none =>
          match j with
          | 0 =>
            exfalso
            exact hc (by simpa using hj)
          | j' + 1 =>
            have hgj' : rest.get? j' = some '%' := by simpa using hj
            have hj'len : j' < rest.length := get?_lt_length hgj'
            rw [effRun_cons run c rest j' (le_of_lt hj'len), if_pos hbs]
            exact ih (run + 1) hr j' hgj'
      · rw [if_neg hbs] at h
        cases hr : findUnescapedPercent rest 0 with
        | some k' => rw [hr] at h; exact Option.noConfusion h
        | none =>
          match j with
          | 0 =>
            exfalso
            exact hc (by simpa using hj)
          | j' + 1 =>
            have hgj' : rest.get? j' = some '%' := by simpa using hj
            have hj'len : j' < rest.length := get?_lt_length hgj'
            rw [effRun_cons run c rest j' (le_of_lt hj'len), if_neg hbs]
            exact ih 0 hr j' hgj'

theorem effRun_zero (l : List Char) (p : Nat) (hp : p ≤ l.length) :
    effRun 0 l p = bsRunBefore l p := by
  rw [effRun]
  by_cases hall : (l.take p).all (· = '\\')
  · rw [if_pos hall, bsRunBefore]
    have h1 : (l.take p).reverse.takeWhile (· = '\\') = (l.take p).reverse :=
      List.takeWhile_eq_self_iff.mpr (by simpa using hall)
    rw [h1, List.length_reverse, List.length_take]
    omega
  · rw [if_neg hall]

theorem fup_some_bsRun (l : List Char) (k : Nat)
    (h : findUnescapedPercent l 0 = some k) :
    l.get? k = some '%' ∧ bsRunBefore l k % 2 = 0 ∧
      ∀ j < k, l.get? j = some '%' → bsRunBefore l j % 2 = 1 := by
  rcases fup_some_spec l 0 k h with ⟨hg, he, hearlier⟩
  have hk : k ≤ l.length := le_of_lt (get?_lt_length hg)
  refine ⟨hg, by rw [← effRun_zero l k hk]; exact he, ?_⟩
  intro j hj hgj
  have hjl : j ≤ l.length := le_of_lt (get?_lt_length hgj)
  rw [← effRun_zero l j hjl]
  exact hearlier j hj hgj

theorem fup_none_bsRun (l : List Char) (h : findUnescapedPercent l 0 = none) :
    ∀ j, l.get? j = some '%' → bsRunBefore l j % 2 = 1 := by
  intro j hgj
  have hjl : j ≤ l.length := le_of_lt (get?_lt_length hgj)
  rw [← effRun_zero l j hjl]
  exact fup_none_spec l 0 h j hgj

theorem fup_unique (l : List Char) (p : Nat)
    (hg : l.get? p = some '%') (he : bsRunBefore l p % 2 = 0)
    (hmin : ∀ q < p, l.get? q = some '%' → bsRunBefore l q % 2 = 1) :
    findUnescapedPercent l 0 = some p := by
  cases h : findUnescapedPercent l 0 with
  | none =>
    have := fup_none_bsRun l h p hg
    omega
  | some k =>
    rcases fup_some_bsRun l k h with ⟨hg', he', hearlier⟩
    rcases Nat.lt_trichotomy k p with hlt | heq | hgt
    · have := hmin k hlt hg'
      omega
    · rw [heq]
    · have := hearlier p hgt hg
      omega

/-- C5 counterexample: the claim says a line with content before the comment
keeps that content and its terminator; the code right-strips the kept prefix,
so "x %c\n" becomes "x\n" and not "x \n". -/
theorem c5_counterexample :
    stripLine (chars "x %c\n") = chars "x\n" ∧
    chars "x\n" ≠ chars "x " ++ ['\n'] := by decide

/-- C5 (amended): a `%` is treated as escaped exactly when it is immediately
preceded by an odd number of consecutive backslashes — a line none of whose
percents has an even backslash run is untouched, and the cut happens at the
first percent with an even run; when the prefix before the cut is pure
whitespace the entire line (newline included) is deleted, and otherwise that
prefix is kept with its trailing whitespace right-stripped, followed by the
preserved line terminator. -/
theorem c5_escape_and_line_rules (l : List Char) :
    ((∀ q, l.get? q = some '%' → bsRunBefore l q % 2 = 1) → stripLine l = l) ∧
    (∀ p, l.get? p = some '%' → bsRunBefore l p % 2 = 0 →
      (∀ q < p, l.get? q = some '%' → bsRunBefore l q % 2 = 1) →
      ((l.take p).all pyIsSpace = true → stripLine l = []) ∧
      ((l.take p).all pyIsSpace = false →
        stripLine l = pyRstrip (l.take p) ++
          (if l.getLast? = some '\n' then ['\n'] else []))) := by
  constructor
  · intro hodd
    cases h : findUnescapedPercent l 0 with
    | none => rw [stripLine, h]
    | some k =>
      exfalso
      rcases fup_some_bsRun l k h with ⟨hg, he, _⟩
      have := hodd k hg
      omega
  · intro p hg he hmin
    have hfup : findUnescapedPercent l 0 = some p := fup_unique l p hg he hmin
    constructor
    · intro hws
      rw [stripLine, hfup]
      simp only [hws, if_pos]
    · intro hws
      rw [stripLine, hfup]
      simp only [hws]
      rw [if_neg (by simp)]

theorem c5_escape_and_line_rules_witness :
    stripLine (chars "\\% a\n") = chars "\\% a\n" ∧
    stripLine (chars "ab %c\n") = pyRstrip ((chars "ab %c\n").take 3) ++ ['\n'] :=
  ⟨(c5_escape_and_line_rules (chars "\\% a\n")).1 (by
      intro q hq
      have hlt : q < (chars "\\% a\n").length := get?_lt_length hq
      have h5 : q < 5 := by simpa using hlt
      interval_cases q <;> revert hq <;> decide),
   by
    have h := ((c5_escape_and_line_rules (chars "ab %c\n")).2 3 (by decide)
      (by decide) (by decide)).2 (by decide)
    rw [h]
    decide⟩

/-!
## C6: idempotence of `strip_comments_preserve_verbatim`

The proof proceeds in two layers.  First `_strip_comments_by_line` is shown
idempotent: the output of `stripLine` contains no unescaped percent, so a
second pass leaves every line alone.  Second, the verbatim-block decomposition
found by the regex is shown to be found again, unchanged, on the output text,
because comment stripping can neither create nor move `\begin`/`\end` tokens
of the verbatim environments. -/

theorem stripLine_of_none {l : List Char} (h : findUnescapedPercent l 0 = none) :
    stripLine l = l := by
  rw [stripLine, h]

theorem stripLine_of_some {l : List Char} {p : Nat}
    (h : findUnescapedPercent l 0 = some p) :
    stripLine l = if (l.take p).all pyIsSpace then [] else
      pyRstrip (l.take p) ++ (if l.getLast? = some '\n' then ['\n'] else []) := by
  rw [stripLine, h]

theorem pyRstrip_decomp (l : List Char) :
    l = pyRstrip l ++ (l.reverse.takeWhile pyIsSpace).reverse := by
  have h := List.takeWhile_append_dropWhile (p := pyIsSpace) (l := l.reverse)
  have h2 := congrArg List.reverse h
  rw [List.reverse_append, List.reverse_reverse] at h2
  rw [pyRstrip]
  exact h2.symm

theorem fup_none_of_all_odd (l : List Char)
    (h : ∀ j, l.get? j = some '%' → bsRunBefore l j % 2 = 1) :
    findUnescapedPercent l 0 = none := by
  cases hq : findUnescapedPercent l 0 with
  | none => rfl
  | some q =>
    rcases fup_some_bsRun l q hq with ⟨hg, he, _⟩
    have := h q hg
    omega

theorem get?_append_l {a b : List Char} {q : Nat} (hq : q < a.length) :
    (a ++ b).get? q = a.get? q := by
  rw [List.get?_eq_getElem?, List.get?_eq_getElem?, List.getElem?_append_left hq]

theorem take_prefix_take {l : List Char} {p q : Nat} (h : q ≤ p) :
    (l.take p).take q = l.take q := by
  rw [List.take_take, Nat.min_eq_left h]

theorem get?_take_lt {l : List Char} {p q : Nat} (h : q < p) :
    (l.take p).get? q = l.get? q := by
  rw [List.get?_eq_getElem?, List.get?_eq_getElem?, List.getElem?_take_of_lt h]

theorem bsRunBefore_eq_of_take_eq {x y : List Char} {q : Nat}
    (h : x.take q = y.take q) : bsRunBefore x q = bsRunBefore y q := by
  rw [bsRunBefore, bsRunBefore, h]

/-- The kept part of a cut line contains no unescaped percent: every percent
in it sat strictly before the cut in the original line, hence had an odd
backslash run there, and the backslash run is unchanged because the prefix up
to any kept position is unchanged. -/
theorem stripLine_out_fup_none (l : List Char) (p : Nat)
    (h : findUnescapedPercent l 0 = some p) :
    findUnescapedPercent
      (pyRstrip (l.take p) ++ (if l.getLast? = some '\n' then ['\n'] else [])) 0 =
      none := by
  obtain ⟨hg, _, hmin⟩ := fup_some_bsRun l p h
  have hplen : p < l.length := get?_lt_length hg
  have hpre : (l.take p).length = p := by rw [List.length_take]; omega
  have hdecomp := pyRstrip_decomp (l.take p)
  have halen : (pyRstrip (l.take p)).length ≤ p := by
    have hlen := congrArg List.length hdecomp
    rw [List.length_append] at hlen
    omega
  apply fup_none_of_all_odd
  intro j hj
  by_cases hja : j < (pyRstrip (l.take p)).length
  · have h1 : (pyRstrip (l.take p) ++
        (if l.getLast? = some '\n' then ['\n'] else [])).get? j =
        (pyRstrip (l.take p)).get? j := get?_append_l hja
    have h2 : (l.take p).get? j = (pyRstrip (l.take p)).get? j := by
      conv_lhs => rw [hdecomp]
      exact get?_append_l hja
    have h3 : l.get? j = some '%' := by
      rw [← get?_take_lt (show j < p by omega) (l := l), h2, ← h1, hj]
    have hodd := hmin j (by omega) h3
    have htk : (pyRstrip (l.take p) ++
        (if l.getLast? = some '\n' then ['\n'] else [])).take j = l.take j := by
      rw [List.take_append_of_le_length (by omega)]
      have h4 : (pyRstrip (l.take p)).take j = (l.take p).take j := by
        conv_rhs => rw [hdecomp]
        rw [List.take_append_of_le_length (by omega)]
      rw [h4, take_prefix_take (by omega)]
    rw [bsRunBefore_eq_of_take_eq htk]
    exact hodd
  · exfalso
    have h1 : (pyRstrip (l.take p) ++
        (if l.getLast? = some '\n' then ['\n'] else [])).get? j =
        (if l.getLast? = some '\n' then ['\n'] else
          ([] : List Char)).get? (j - (pyRstrip (l.take p)).length) := by
      rw [List.get?_eq_getElem?, List.get?_eq_getElem?,
        List.getElem?_append_right (by omega)]
    rw [h1] at hj
    by_cases hc : l.getLast? = some '\n'
    · rw [if_pos hc] at hj
      rcases hn : j - (pyRstrip (l.take p)).length with _ | m
      · rw [hn] at hj
        simp at hj
      · rw [hn] at hj
        simp at hj
    · rw [if_neg hc] at hj
      simp at hj

theorem stripLine_idem (l : List Char) : stripLine (stripLine l) = stripLine l := by
  cases h : findUnescapedPercent l 0 with
  | none => rw [stripLine_of_none h, stripLine_of_none h]
  | some p =>
    by_cases hws : (l.take p).all pyIsSpace
    · have h1 : stripLine l = [] := by rw [stripLine_of_some h, if_pos hws]
      rw [h1]
      rfl
    · have h1 : stripLine l = pyRstrip (l.take p) ++
          (if l.getLast? = some '\n' then ['\n'] else []) := by
        rw [stripLine_of_some h, if_neg hws]
      rw [h1, stripLine_of_none (stripLine_out_fup_none l p h)]

theorem stripLine_ends_nl (l : List Char) (h : l.getLast? = some '\n') :
    stripLine l = [] ∨ (stripLine l).getLast? = some '\n' := by
  cases hf : findUnescapedPercent l 0 with
  | none =>
    right
    rw [stripLine_of_none hf]
    exact h
  | some p =>
    by_cases hws : (l.take p).all pyIsSpace
    · left
      rw [stripLine_of_some hf, if_pos hws]
    · right
      rw [stripLine_of_some hf, if_neg hws, if_pos h]
      exact List.getLast?_concat _

theorem stripLine_no_nl_dropLast (l : List Char) (h : '\n' ∉ l.dropLast) :
    '\n' ∉ (stripLine l).dropLast := by
  cases hf : findUnescapedPercent l 0 with
  | none =>
    rw [stripLine_of_none hf]
    exact h
  | some p =>
    by_cases hws : (l.take p).all pyIsSpace
    · rw [stripLine_of_some hf, if_pos hws]
      simp
    · rw [stripLine_of_some hf, if_neg hws]
      have hg := (fup_some_bsRun l p hf).1
      have hplen : p < l.length := get?_lt_length hg
      have hpre : '\n' ∉ l.take p := by
        intro hmem
        apply h
        have heq : l.take p = l.dropLast.take p := by
          rw [List.dropLast_eq_take, take_prefix_take (by omega)]
        rw [heq] at hmem
        exact List.mem_of_mem_take hmem
      have hrs : '\n' ∉ pyRstrip (l.take p) := by
        intro hmem
        apply hpre
        rw [pyRstrip_decomp (l.take p)]
        exact List.mem_append_left _ hmem
      by_cases hc : l.getLast? = some '\n'
      · rw [if_pos hc, List.dropLast_concat]
        exact hrs
      · rw [if_neg hc]
        intro hmem
        rw [List.append_nil] at hmem
        exact hrs (List.mem_of_mem_dropLast hmem)

/-- Split text after the first newline: the first component is the first
`splitlines(keepends=True)` line, the second the remaining text. -/
def breakAfterNl : List Char → List Char × List Char
  | [] => ([], [])
  | c :: rest =>
    if c = '\n' then ([c], rest)
    else (c :: (breakAfterNl rest).1, (breakAfterNl rest).2)

theorem getLast?_cons_ne_nil {a : Char} {l : List Char} (h : l ≠ []) :
    (a :: l).getLast? = l.getLast? := by
  cases l with
  | nil => exact absurd rfl h
  | cons b t => exact List.getLast?_cons_cons

theorem mem_of_getLast?_eq {l : List Char} {x : Char} (h : l.getLast? = some x) :
    x ∈ l := by
  cases l with
  | nil => simp at h
  | cons c t =>
    rw [List.getLast?_eq_getLast (c :: t) (by simp)] at h
    have hm := List.getLast_mem (l := c :: t) (by simp)
    rwa [Option.some.inj h] at hm

theorem breakAfterNl_spec : ∀ l : List Char, l ≠ [] →
    (breakAfterNl l).1 ≠ [] ∧
    (breakAfterNl l).1 ++ (breakAfterNl l).2 = l ∧
    '\n' ∉ (breakAfterNl l).1.dropLast ∧
    ((breakAfterNl l).1.getLast? = some '\n' ∨ (breakAfterNl l).2 = []) ∧
    (breakAfterNl l).2.length < l.length := by
  intro l
  induction l with
  | nil => intro h; exact absurd rfl h
  | cons c rest ih =>
    intro _
    by_cases hc : c = '\n'
    · simp only [breakAfterNl, if_pos hc]
      refine ⟨by simp, by simp, by simp, Or.inl (by simp [hc]), by simp⟩
    · by_cases hr : rest = []
      · subst hr
        simp only [breakAfterNl, if_neg hc]
        refine ⟨by simp, by simp, by simp, Or.inr (by simp [breakAfterNl]),
          by simp [breakAfterNl]⟩
      · obtain ⟨h1, h2, h3, h4, h5⟩ := ih hr
        simp only [breakAfterNl, if_neg hc]
        refine ⟨by simp, ?_, ?_, ?_, by simpa using Nat.lt_succ_of_lt h5⟩
        · simpa using h2
        · rw [List.dropLast_cons_of_ne_nil h1]
          intro hm
          rcases List.mem_cons.mp hm with hcc | hcc
          · exact hc hcc.symm
          · exact h3 hcc
        · rcases h4 with h4 | h4
          · left
            rw [getLast?_cons_ne_nil h1]
            exact h4
          · right
            exact h4

theorem splitLinesKeep_cons (c : Char) (rest : List Char) :
    splitLinesKeep (c :: rest) =
      if pyIsLineBreak c then
        if c = '\r' then
          match splitLinesKeep rest with
          | ('\n' :: ln) :: restLines => ('\r' :: '\n' :: ln) :: restLines
          | _ => ['\r'] :: splitLinesKeep rest
        else [c] :: splitLinesKeep rest
      else
        match splitLinesKeep rest with
        | [] => [[c]]
        | ln :: restLines => (c :: ln) :: restLines := rfl

theorem splitLinesKeep_append_line :
    ∀ (a b : List Char), a ≠ [] →
      (∀ x ∈ a.dropLast, pyIsLineBreak x = false) →
      (a.getLast? = some '\n' ∨ b = []) →
      splitLinesKeep (a ++ b) = a :: splitLinesKeep b := by
  intro a
  induction a with
  | nil => intro b h; exact absurd rfl h
  | cons c a' ih =>
    intro b _ hd he
    by_cases ha' : a' = []
    · subst ha'
      by_cases hc : c = '\n'
      · subst hc
        rw [List.singleton_append, splitLinesKeep_cons,
          if_pos (show pyIsLineBreak '\n' = true by decide),
          if_neg (show ¬('\n' = '\r') by decide)]
      · have hb : b = [] := by
          rcases he with he | he
          · exact absurd (by simpa using he) hc
          · exact he
        subst hb
        rw [List.append_nil, splitLinesKeep_cons]
        by_cases hbrk : pyIsLineBreak c = true
        · rw [if_pos hbrk]
          by_cases hcr : c = '\r'
          · subst hcr
            rfl
          · rw [if_neg hcr]
        · rw [if_neg hbrk]
          rfl
    · have hcm : c ∈ (c :: a').dropLast := by
        rw [List.dropLast_cons_of_ne_nil ha']
        exact List.mem_cons_self c _
      have hc : pyIsLineBreak c = false := hd c hcm
      have hcn : ¬ pyIsLineBreak c = true := by
        rw [hc]
        simp
      have hd' : ∀ x ∈ a'.dropLast, pyIsLineBreak x = false := by
        intro x hm
        apply hd
        rw [List.dropLast_cons_of_ne_nil ha']
        exact List.mem_cons_of_mem _ hm
      have he' : a'.getLast? = some '\n' ∨ b = [] := by
        rcases he with he | he
        · left
          rw [getLast?_cons_ne_nil ha'] at he
          exact he
        · right
          exact he
      rw [List.cons_append, splitLinesKeep_cons, if_neg hcn, ih b ha' hd' he']

theorem scb_append_line (a b : List Char) (h1 : a ≠ [])
    (hd : ∀ x ∈ a.dropLast, pyIsLineBreak x = false)
    (he : a.getLast? = some '\n' ∨ b = []) :
    stripCommentsByLine (a ++ b) = stripLine a ++ stripCommentsByLine b := by
  rw [stripCommentsByLine, splitLinesKeep_append_line a b h1 hd he, List.map_cons,
    List.flatten_cons, stripCommentsByLine]

/-- Characters of `stripLine a` come from `a` or are the re-emitted `'\n'`. -/
theorem stripLine_mem {a : List Char} {c : Char} (h : c ∈ stripLine a) :
    c ∈ a ∨ c = '\n' := by
  cases hf : findUnescapedPercent a 0 with
  | none =>
    rw [stripLine_of_none hf] at h
    exact Or.inl h
  | some p =>
    by_cases hws : (a.take p).all pyIsSpace
    · rw [stripLine_of_some hf, if_pos hws] at h
      simp at h
    · rw [stripLine_of_some hf, if_neg hws] at h
      rcases List.mem_append.mp h with h | h
      · left
        have h2 : c ∈ a.take p := by
          rw [pyRstrip_decomp (a.take p)]
          exact List.mem_append_left _ h
        exact List.mem_of_mem_take h2
      · by_cases hc2 : a.getLast? = some '\n'
        · right
          rw [if_pos hc2] at h
          simpa using h
        · rw [if_neg hc2] at h
          simp at h

/-- In a text whose only line breaks are `'\n'`, the first
`breakAfterNl` line has no break character before its terminator. -/
theorem firstLine_breaks_free {text : List Char}
    (hnl : ∀ c ∈ text, pyIsLineBreak c = true → c = '\n')
    (ht : text ≠ []) :
    ∀ x ∈ (breakAfterNl text).1.dropLast, pyIsLineBreak x = false := by
  obtain ⟨_, h2, h3, _, _⟩ := breakAfterNl_spec text ht
  intro x hx
  cases hbx : pyIsLineBreak x
  · rfl
  · exfalso
    have hxa : x ∈ (breakAfterNl text).1 := List.mem_of_mem_dropLast hx
    have hxt : x ∈ text := by
      rw [← h2]
      exact List.mem_append_left _ hxa
    have hxn := hnl x hxt hbx
    rw [hxn] at hx
    exact h3 hx

/-- A stripped line keeps the break-free property of its interior. -/
theorem stripLine_breaks_free {a text : List Char}
    (hnl : ∀ c ∈ text, pyIsLineBreak c = true → c = '\n')
    (hsub : ∀ c ∈ a, c ∈ text)
    (hno : '\n' ∉ (stripLine a).dropLast) :
    ∀ x ∈ (stripLine a).dropLast, pyIsLineBreak x = false := by
  intro x hx
  cases hbx : pyIsLineBreak x
  · rfl
  · exfalso
    have hxs : x ∈ stripLine a := List.mem_of_mem_dropLast hx
    rcases stripLine_mem hxs with hm | hm
    · have hxn := hnl x (hsub x hm) hbx
      rw [hxn] at hx
      exact hno hx
    · rw [hm] at hx
      exact hno hx

theorem mem_text_of_first {text : List Char} (ht : text ≠ []) :
    ∀ c ∈ (breakAfterNl text).1, c ∈ text := by
  obtain ⟨_, h2, _, _, _⟩ := breakAfterNl_spec text ht
  intro c hc
  rw [← h2]
  exact List.mem_append_left _ hc

theorem nlOnly_of_second {text : List Char}
    (hnl : ∀ c ∈ text, pyIsLineBreak c = true → c = '\n') (ht : text ≠ []) :
    ∀ c ∈ (breakAfterNl text).2, pyIsLineBreak c = true → c = '\n' := by
  obtain ⟨_, h2, _, _, _⟩ := breakAfterNl_spec text ht
  intro c hc
  apply hnl
  rw [← h2]
  exact List.mem_append_right _ hc

theorem scb_idem_aux : ∀ (n : Nat) (text : List Char), text.length ≤ n →
    (∀ c ∈ text, pyIsLineBreak c = true → c = '\n') →
    stripCommentsByLine (stripCommentsByLine text) = stripCommentsByLine text := by
  intro n
  induction n with
  | zero =>
    intro text h _
    have h0 : text = [] := List.eq_nil_of_length_eq_zero (Nat.le_zero.mp h)
    subst h0
    rfl
  | succ n ih =>
    intro text hlen hnl
    by_cases ht : text = []
    · subst ht; rfl
    · obtain ⟨h1, h2, h3, h4, h5⟩ := breakAfterNl_spec text ht
      have hb : (breakAfterNl text).2.length ≤ n := by omega
      have hnl2 := nlOnly_of_second hnl ht
      have hscb : stripCommentsByLine text =
          stripLine (breakAfterNl text).1 ++
            stripCommentsByLine (breakAfterNl text).2 := by
        conv_lhs => rw [← h2]
        exact scb_append_line _ _ h1 (firstLine_breaks_free hnl ht) h4
      rw [hscb]
      by_cases hsa : stripLine (breakAfterNl text).1 = []
      · rw [hsa]
        simp only [List.nil_append]
        exact ih _ hb hnl2
      · have hd' : ∀ x ∈ (stripLine (breakAfterNl text).1).dropLast,
            pyIsLineBreak x = false :=
          stripLine_breaks_free hnl (mem_text_of_first ht)
            (stripLine_no_nl_dropLast _ h3)
        have he' : (stripLine (breakAfterNl text).1).getLast? = some '\n' ∨
            stripCommentsByLine (breakAfterNl text).2 = [] := by
          rcases h4 with h4 | h4
          · rcases stripLine_ends_nl _ h4 with h | h
            · exact absurd h hsa
            · exact Or.inl h
          · right
            rw [h4]
            rfl
        rw [scb_append_line _ _ hsa hd' he', stripLine_idem, ih _ hb hnl2]

theorem scb_idem (text : List Char)
    (hnl : ∀ c ∈ text, pyIsLineBreak c = true → c = '\n') :
    stripCommentsByLine (stripCommentsByLine text) = stripCommentsByLine text :=
  scb_idem_aux text.length text le_rfl hnl

/-- Where an occurrence `α ++ t ++ β` sits relative to an append `x ++ y`:
entirely inside `x`, entirely inside `y`, or straddling the boundary. -/
theorem append_occ_cases {t α β x y : List Char}
    (h : α ++ t ++ β = x ++ y) :
    (∃ γ, x = α ++ t ++ γ ∧ β = γ ++ y) ∨
    (∃ δ, α = x ++ δ ∧ y = δ ++ t ++ β) ∨
    (∃ t1 t2, t = t1 ++ t2 ∧ t1 ≠ [] ∧ t2 ≠ [] ∧ x = α ++ t1 ∧ y = t2 ++ β) := by
  rw [List.append_assoc] at h
  rcases List.append_eq_append_iff.mp h with ⟨e, hx, hb⟩ | ⟨e, ha, hy⟩
  · rcases List.append_eq_append_iff.mp hb with ⟨f, he, hbf⟩ | ⟨f, ht, hyf⟩
    · left
      refine ⟨f, ?_, hbf⟩
      rw [hx, he, ← List.append_assoc]
    · by_cases hf : f = []
      · subst hf
        rw [List.append_nil] at ht
        left
        refine ⟨[], ?_, ?_⟩
        · rw [List.append_nil, hx, ht]
        · rw [List.nil_append]
          rw [List.nil_append] at hyf
          exact hyf.symm
      · by_cases heq : e = []
        · subst heq
          rw [List.nil_append] at ht
          right; left
          refine ⟨[], ?_, ?_⟩
          · rw [List.append_nil, hx, List.append_nil]
          · rw [List.nil_append, hyf, ht]
        · right; right
          exact ⟨e, f, ht, heq, hf, hx, hyf⟩
  · right; left
    refine ⟨e, ha, ?_⟩
    rw [hy, List.append_assoc]

theorem infix_append_cases {t x y : List Char} (h : t <:+: x ++ y) :
    t <:+: x ∨ t <:+: y ∨
    ∃ t1 t2, t = t1 ++ t2 ∧ t1 ≠ [] ∧ t2 ≠ [] ∧ t1 <:+ x ∧ t2 <+: y := by
  obtain ⟨s, u, hsu⟩ := h
  rcases append_occ_cases hsu with ⟨γ, hx, _⟩ | ⟨δ, _, hy⟩ | ⟨t1, t2, ht, h1, h2, hx, hy⟩
  · exact Or.inl ⟨s, γ, hx.symm⟩
  · exact Or.inr (Or.inl ⟨δ, u, hy.symm⟩)
  · exact Or.inr (Or.inr ⟨t1, t2, ht, h1, h2, ⟨s, hx.symm⟩, ⟨u, hy.symm⟩⟩)

theorem infix_append_right_self (a b : List Char) : a <:+: a ++ b :=
  ⟨[], b, by simp⟩

theorem infix_append_left_self (a b : List Char) : b <:+: a ++ b :=
  ⟨a, [], by simp⟩

theorem suffix_getLast? {a b : List Char} (h : a <:+ b) (ha : a ≠ []) :
    b.getLast? = a.getLast? := by
  obtain ⟨s, hs⟩ := h
  rw [← hs]
  exact List.getLast?_append_of_ne_nil s ha

theorem suffix_last_nl {x t1 : List Char} (ht1 : t1 ≠ []) (hsuf : t1 <:+ x)
    (hx : x.getLast? = some '\n') : '\n' ∈ t1 := by
  have h := suffix_getLast? hsuf ht1
  exact mem_of_getLast?_eq (by rw [← h, hx])

/-- A `c`-free infix of `x ++ [c]` is an infix of `x`. -/
theorem infix_concat_elim {t x : List Char} {c : Char} (hc : c ∉ t)
    (h : t <:+: x ++ [c]) : t <:+: x := by
  obtain ⟨s, u, hsu⟩ := h
  rcases List.eq_nil_or_concat u with hu | ⟨u', d, hud⟩
  · subst hu
    rw [List.append_nil] at hsu
    rcases List.eq_nil_or_concat t with ht | ⟨t', e, hte⟩
    · subst ht
      exact ⟨[], x, by simp⟩
    · exfalso
      rw [List.concat_eq_append] at hte
      subst hte
      rw [← List.append_assoc] at hsu
      have he := congrArg List.getLast? hsu
      rw [List.getLast?_concat, List.getLast?_concat] at he
      apply hc
      rw [Option.some.inj he]
      exact List.mem_append_right _ (List.mem_singleton.mpr rfl)
  · rw [List.concat_eq_append] at hud
    subst hud
    rw [← List.append_assoc] at hsu
    have hd := congrArg List.dropLast hsu
    rw [List.dropLast_concat, List.dropLast_concat] at hd
    exact ⟨s, u', hd⟩

/-- A nonempty newline-free infix of a stripped line occurs in the original
line. -/
theorem stripLine_infix_lift {tok a : List Char} (h0 : tok ≠ []) (h1 : '\n' ∉ tok)
    (h : tok <:+: stripLine a) : tok <:+: a := by
  cases hf : findUnescapedPercent a 0 with
  | none => rwa [stripLine_of_none hf] at h
  | some p =>
    by_cases hws : (a.take p).all pyIsSpace
    · rw [stripLine_of_some hf, if_pos hws] at h
      exact absurd (List.infix_nil.mp h) h0
    · rw [stripLine_of_some hf, if_neg hws] at h
      have h2 : tok <:+: pyRstrip (a.take p) := by
        by_cases hc : a.getLast? = some '\n'
        · rw [if_pos hc] at h
          exact infix_concat_elim h1 h
        · rw [if_neg hc] at h
          simpa using h
      have h3 : pyRstrip (a.take p) <+: a :=
        List.IsPrefix.trans ⟨_, (pyRstrip_decomp (a.take p)).symm⟩ (List.take_prefix p a)
      exact h2.trans h3.isInfix

theorem scb_ne_nil_of {b : List Char} (h : stripCommentsByLine b ≠ []) : b ≠ [] := by
  intro hnil
  apply h
  rw [hnil]
  rfl

/-- A nonempty newline-free infix of `_strip_comments_by_line`'s output occurs
in the input. -/
theorem scb_infix_transfer : ∀ (n : Nat) (text tok : List Char), text.length ≤ n →
    (∀ c ∈ text, pyIsLineBreak c = true → c = '\n') →
    tok ≠ [] → '\n' ∉ tok → tok <:+: stripCommentsByLine text → tok <:+: text := by
  intro n
  induction n with
  | zero =>
    intro text tok hlen _ h0 h1 hin
    have h2 : text = [] := List.eq_nil_of_length_eq_zero (Nat.le_zero.mp hlen)
    subst h2
    exact absurd (List.infix_nil.mp hin) h0
  | succ n ih =>
    intro text tok hlen hnl h0 h1 hin
    by_cases ht : text = []
    · subst ht
      exact absurd (List.infix_nil.mp hin) h0
    · obtain ⟨hb1, hb2, hb3, hb4, hb5⟩ := breakAfterNl_spec text ht
      have hnl2 := nlOnly_of_second hnl ht
      have hscb : stripCommentsByLine text =
          stripLine (breakAfterNl text).1 ++
            stripCommentsByLine (breakAfterNl text).2 := by
        conv_lhs => rw [← hb2]
        exact scb_append_line _ _ hb1 (firstLine_breaks_free hnl ht) hb4
      rw [hscb] at hin
      rcases infix_append_cases hin with hA | hB | ⟨t1, t2, htt, ht1, ht2, hsuf, hpre⟩
      · rw [← hb2]
        exact (stripLine_infix_lift h0 h1 hA).trans (infix_append_right_self _ _)
      · rw [← hb2]
        exact (ih _ tok (by omega) hnl2 h0 h1 hB).trans (infix_append_left_self _ _)
      · exfalso
        have hscbb : stripCommentsByLine (breakAfterNl text).2 ≠ [] := by
          intro hnil
          rw [hnil] at hpre
          exact ht2 (List.prefix_nil.mp hpre)
        have hbne : (breakAfterNl text).2 ≠ [] := scb_ne_nil_of hscbb
        have hend : (breakAfterNl text).1.getLast? = some '\n' := by
          rcases hb4 with h | h
          · exact h
          · exact absurd h hbne
        have hslne : stripLine (breakAfterNl text).1 ≠ [] := by
          intro hnil
          rw [hnil] at hsuf
          exact ht1 (List.suffix_nil.mp hsuf)
        have hsl : (stripLine (breakAfterNl text).1).getLast? = some '\n' := by
          rcases stripLine_ends_nl _ hend with h | h
          · exact absurd h hslne
          · exact h
        apply h1
        rw [htt]
        exact List.mem_append_left _ (suffix_last_nl ht1 hsuf hsl)

/-- Position-aware transfer through one line: an occurrence of a nonempty
newline-free `t` in `stripLine a` lifts to an occurrence in `a` such that any
nonempty newline-free infix of the part after `t` in the output still occurs
after `t` in `a`. -/
theorem stripLine_occ {t a α β : List Char} (h0 : t ≠ []) (h1 : '\n' ∉ t)
    (h : stripLine a = α ++ t ++ β) :
    ∃ γ δ, a = γ ++ t ++ δ ∧
      ∀ tok, tok ≠ [] → '\n' ∉ tok → tok <:+: β → tok <:+: δ := by
  cases hf : findUnescapedPercent a 0 with
  | none =>
    rw [stripLine_of_none hf] at h
    exact ⟨α, β, h, fun tok _ _ htk => htk⟩
  | some p =>
    by_cases hws : (a.take p).all pyIsSpace
    · rw [stripLine_of_some hf, if_pos hws] at h
      exfalso
      have hl := congrArg List.length h
      simp only [List.length_nil, List.length_append] at hl
      exact h0 (List.eq_nil_of_length_eq_zero (by omega))
    · rw [stripLine_of_some hf, if_neg hws] at h
      rcases append_occ_cases h.symm with ⟨γ₀, hx, hbb⟩ | ⟨δ₀, _, hy⟩ |
          ⟨t1, t2, htt, _, ht2, _, hy⟩
      · refine ⟨α, γ₀ ++ (((a.take p).reverse.takeWhile pyIsSpace).reverse ++
          a.drop p), ?_, ?_⟩
        · conv_lhs => rw [← List.take_append_drop p a,
            pyRstrip_decomp (a.take p), hx]
          simp [List.append_assoc]
        · intro tok hk0 hk1 hk
          rw [hbb] at hk
          have hkg : tok <:+: γ₀ := by
            by_cases hc : a.getLast? = some '\n'
            · rw [if_pos hc] at hk
              exact infix_concat_elim hk1 hk
            · rw [if_neg hc] at hk
              simpa using hk
          exact hkg.trans (infix_append_right_self _ _)
      · exfalso
        by_cases hc : a.getLast? = some '\n'
        · rw [if_pos hc] at hy
          have hsub : t <:+: ['\n'] := ⟨δ₀, β, hy.symm⟩
          have hall : ∀ x ∈ t, x = '\n' := fun x hx => by
            simpa using hsub.sublist.subset hx
          apply h1
          cases t with
          | nil => exact absurd rfl h0
          | cons c ts =>
            rw [hall c (List.mem_cons_self c ts)]
            exact List.mem_cons_self _ _
        · rw [if_neg hc] at hy
          have h2 := List.append_eq_nil.mp hy.symm
          exact h0 (List.append_eq_nil.mp h2.1).2
      · exfalso
        by_cases hc : a.getLast? = some '\n'
        · rw [if_pos hc] at hy
          have hsub : t2 <:+: ['\n'] := ⟨[], β, by
            rw [List.nil_append]
            exact hy.symm⟩
          have hall : ∀ x ∈ t2, x = '\n' := fun x hx => by
            simpa using hsub.sublist.subset hx
          apply h1
          rw [htt]
          apply List.mem_append_right
          cases t2 with
          | nil => exact absurd rfl ht2
          | cons c ts =>
            rw [hall c (List.mem_cons_self c ts)]
            exact List.mem_cons_self _ _
        · rw [if_neg hc] at hy
          exact ht2 (List.append_eq_nil.mp hy.symm).1

/-- Position-aware transfer through `_strip_comments_by_line`: an occurrence
of a nonempty newline-free `t` in the output lifts to an occurrence in the
input preserving every later nonempty newline-free infix. -/
theorem scb_occ_transfer : ∀ (n : Nat) (text t α β : List Char), text.length ≤ n →
    (∀ c ∈ text, pyIsLineBreak c = true → c = '\n') →
    t ≠ [] → '\n' ∉ t →
    stripCommentsByLine text = α ++ t ++ β →
    ∃ γ δ, text = γ ++ t ++ δ ∧
      ∀ tok, tok ≠ [] → '\n' ∉ tok → tok <:+: β → tok <:+: δ := by
  intro n
  induction n with
  | zero =>
    intro text t α β hlen _ h0 h1 h
    have h2 : text = [] := List.eq_nil_of_length_eq_zero (Nat.le_zero.mp hlen)
    subst h2
    exfalso
    have h3 : ([] : List Char) = α ++ t ++ β := h
    have h4 := List.append_eq_nil.mp h3.symm
    exact h0 (List.append_eq_nil.mp h4.1).2
  | succ n ih =>
    intro text t α β hlen hnl h0 h1 h
    by_cases ht : text = []
    · subst ht
      exfalso
      have h3 : ([] : List Char) = α ++ t ++ β := h
      have h4 := List.append_eq_nil.mp h3.symm
      exact h0 (List.append_eq_nil.mp h4.1).2
    · obtain ⟨hb1, hb2, hb3, hb4, hb5⟩ := breakAfterNl_spec text ht
      have hnl2 := nlOnly_of_second hnl ht
      have hscb : stripCommentsByLine text =
          stripLine (breakAfterNl text).1 ++
            stripCommentsByLine (breakAfterNl text).2 := by
        conv_lhs => rw [← hb2]
        exact scb_append_line _ _ hb1 (firstLine_breaks_free hnl ht) hb4
      rw [hscb] at h
      rcases append_occ_cases h.symm with ⟨γ₀, hx, hbb⟩ | ⟨δ₀, _, hy⟩ |
          ⟨t1, t2, htt, ht1, ht2, hsuf, hpre⟩
      · obtain ⟨γ, δ, haeq, htr⟩ := stripLine_occ h0 h1 hx
        refine ⟨γ, δ ++ (breakAfterNl text).2, ?_, ?_⟩
        · have h5 : text = (γ ++ t ++ δ) ++ (breakAfterNl text).2 := by
            rw [← haeq]
            exact hb2.symm
          conv_lhs => rw [h5]
          simp [List.append_assoc]
        · intro tok hk0 hk1 hk
          rw [hbb] at hk
          rcases infix_append_cases hk with hkA | hkB |
              ⟨s1, s2, hstt, hs1, hs2, hssuf, hspre⟩
          · exact (htr tok hk0 hk1 hkA).trans (infix_append_right_self _ _)
          · exact ((scb_infix_transfer (breakAfterNl text).2.length _ tok le_rfl
              hnl2 hk0 hk1 hkB).trans (infix_append_left_self _ _))
          · exfalso
            have hscbb : stripCommentsByLine (breakAfterNl text).2 ≠ [] := by
              intro hnil
              rw [hnil] at hspre
              exact hs2 (List.prefix_nil.mp hspre)
            have hbne : (breakAfterNl text).2 ≠ [] := scb_ne_nil_of hscbb
            have hend : (breakAfterNl text).1.getLast? = some '\n' := by
              rcases hb4 with hz | hz
              · exact hz
              · exact absurd hz hbne
            have hslne : stripLine (breakAfterNl text).1 ≠ [] := by
              intro hnil
              rw [hnil] at hx
              have hl := congrArg List.length hx
              simp only [List.length_nil, List.length_append] at hl
              exact h0 (List.eq_nil_of_length_eq_zero (by omega))
            have hsl : (stripLine (breakAfterNl text).1).getLast? = some '\n' := by
              rcases stripLine_ends_nl _ hend with hz | hz
              · exact absurd hz hslne
              · exact hz
            have hγsuf : γ₀ <:+ stripLine (breakAfterNl text).1 := ⟨_, hx.symm⟩
            have hγne : γ₀ ≠ [] := by
              intro hnil
              rw [hnil] at hssuf
              exact hs1 (List.suffix_nil.mp hssuf)
            have hγl : γ₀.getLast? = some '\n' := by
              rw [← suffix_getLast? hγsuf hγne]
              exact hsl
            apply hk1
            rw [hstt]
            exact List.mem_append_left _ (suffix_last_nl hs1 hssuf hγl)
      · obtain ⟨γ₂, δ, hbeq, htr⟩ := ih _ t δ₀ β (by omega) hnl2 h0 h1 hy
        refine ⟨(breakAfterNl text).1 ++ γ₂, δ, ?_, htr⟩
        have h5 : text = (breakAfterNl text).1 ++ (γ₂ ++ t ++ δ) := by
          rw [← hbeq]
          exact hb2.symm
        conv_lhs => rw [h5]
        simp [List.append_assoc]
      · exfalso
        have hsuf' : t1 <:+ stripLine (breakAfterNl text).1 := ⟨α, hsuf.symm⟩
        have hpre' : t2 <+: stripCommentsByLine (breakAfterNl text).2 :=
          ⟨β, hpre.symm⟩
        have hscbb : stripCommentsByLine (breakAfterNl text).2 ≠ [] := by
          intro hnil
          rw [hnil] at hpre'
          exact ht2 (List.prefix_nil.mp hpre')
        have hbne : (breakAfterNl text).2 ≠ [] := scb_ne_nil_of hscbb
        have hend : (breakAfterNl text).1.getLast? = some '\n' := by
          rcases hb4 with hz | hz
          · exact hz
          · exact absurd hz hbne
        have hslne : stripLine (breakAfterNl text).1 ≠ [] := by
          intro hnil
          rw [hnil] at hsuf'
          exact ht1 (List.suffix_nil.mp hsuf')
        have hsl : (stripLine (breakAfterNl text).1).getLast? = some '\n' := by
          rcases stripLine_ends_nl _ hend with hz | hz
          · exact absurd hz hslne
          · exact hz
        apply h1
        rw [htt]
        exact List.mem_append_left _ (suffix_last_nl ht1 hsuf' hsl)

theorem splitFirstTok_complete (tok : List Char) :
    ∀ l, tok <:+: l → (splitFirstTok tok l).isSome = true := by
  intro l
  induction l with
  | nil =>
    intro h
    have htok : tok = [] := List.infix_nil.mp h
    subst htok
    rw [splitFirstTok,
      if_pos (List.isPrefixOf_iff_prefix.mpr List.nil_prefix)]
    rfl
  | cons c rest ih =>
    intro h
    rw [splitFirstTok]
    by_cases hp : tok.isPrefixOf (c :: rest) = true
    · rw [if_pos hp]
      rfl
    · rw [if_neg hp]
      have h2 : tok <:+: rest := by
        obtain ⟨s, u, hsu⟩ := h
        cases s with
        | nil =>
          exfalso
          apply hp
          rw [List.isPrefixOf_iff_prefix]
          rw [List.nil_append] at hsu
          exact ⟨u, hsu⟩
        | cons d s' =>
          rw [List.cons_append, List.cons_append] at hsu
          injection hsu with hh ht
          exact ⟨s', u, ht⟩
      have h3 := ih h2
      cases ho : splitFirstTok tok rest with
      | none =>
        rw [ho] at h3
        simp at h3
      | some ab => rfl

theorem splitFirstTok_leftmost (tok : List Char) :
    ∀ l a b, splitFirstTok tok l = some (a, b) →
      ∀ a₁ b₁, l = a₁ ++ tok ++ b₁ → a.length ≤ a₁.length := by
  intro l
  induction l with
  | nil =>
    intro a b h a₁ b₁ _
    rw [splitFirstTok] at h
    by_cases hp : tok.isPrefixOf ([] : List Char) = true
    · rw [if_pos hp] at h
      have h1 : a = [] := ((congrArg Prod.fst (Option.some.inj h))).symm
      subst h1
      simp
    · rw [if_neg hp] at h
      exact Option.noConfusion h
  | cons c rest ih =>
    intro a b h a₁ b₁ he
    rw [splitFirstTok] at h
    by_cases hp : tok.isPrefixOf (c :: rest) = true
    · rw [if_pos hp] at h
      have h1 : a = [] := ((congrArg Prod.fst (Option.some.inj h))).symm
      subst h1
      simp
    · rw [if_neg hp] at h
      cases a₁ with
      | nil =>
        exfalso
        apply hp
        rw [List.isPrefixOf_iff_prefix]
        rw [List.nil_append] at he
        exact ⟨b₁, he.symm⟩
      | cons d a₁' =>
        cases hs : splitFirstTok tok rest with
        | none =>
          rw [hs] at h
          exact Option.noConfusion h
        | some ab =>
          rw [hs] at h
          have ha : c :: ab.1 = a := congrArg Prod.fst (Option.some.inj h)
          have he' : rest = a₁' ++ tok ++ b₁ := by
            rw [List.cons_append, List.cons_append] at he
            injection he with hh ht
          have h4 := ih ab.1 ab.2 (by rw [hs]) a₁' b₁ he'
          rw [← ha]
          simpa using Nat.succ_le_succ h4

theorem splitFirstTok_of_prefix_min (tok l a b : List Char)
    (hd : l = a ++ tok ++ b)
    (hmin : ∀ a₁ b₁, l = a₁ ++ tok ++ b₁ → a.length ≤ a₁.length) :
    splitFirstTok tok l = some (a, b) := by
  have hc : (splitFirstTok tok l).isSome = true :=
    splitFirstTok_complete tok l ⟨a, b, hd.symm⟩
  cases hs : splitFirstTok tok l with
  | none =>
    rw [hs] at hc
    simp at hc
  | some ab =>
    have hsound := splitFirstTok_sound tok l ab.1 ab.2 (by rw [hs])
    have hle := splitFirstTok_leftmost tok l ab.1 ab.2 (by rw [hs]) a b hd
    have hge := hmin ab.1 ab.2 hsound
    have hlen : a.length = ab.1.length := by omega
    have heq : a ++ (tok ++ b) = ab.1 ++ (tok ++ ab.2) := by
      rw [← List.append_assoc, ← List.append_assoc, ← hd, ← hsound]
    obtain ⟨h1, h2⟩ := List.append_inj heq hlen
    have h3 : b = ab.2 := List.append_cancel_left h2
    rw [h1, h3]

theorem occ_transfer_prefix {x s a₁ tok b₁ : List Char}
    (h : x ++ s = a₁ ++ tok ++ b₁) (hlen : a₁.length + tok.length ≤ x.length)
    (hk : tok ≠ []) :
    ∀ r, ∃ b₂, x ++ r = a₁ ++ tok ++ b₂ := by
  intro r
  rw [List.append_assoc] at h
  rcases List.append_eq_append_iff.mp h.symm with ⟨e, hx, hs'⟩ | ⟨e, ha, _⟩
  · rcases List.append_eq_append_iff.mp hs' with ⟨f, he, _⟩ | ⟨f, ht, _⟩
    · refine ⟨f ++ r, ?_⟩
      rw [hx, he]
      simp [List.append_assoc]
    · have hxlen := congrArg List.length hx
      rw [List.length_append] at hxlen
      have htlen := congrArg List.length ht
      rw [List.length_append] at htlen
      have hf : f = [] := List.eq_nil_of_length_eq_zero (by omega)
      subst hf
      rw [List.append_nil] at ht
      refine ⟨r, ?_⟩
      rw [hx, ← ht]
  · exfalso
    have h1 := congrArg List.length ha
    rw [List.length_append] at h1
    exact hk (List.eq_nil_of_length_eq_zero (by omega))

theorem prefix_get?_eq {a l : List Char} (h : a <+: l) {k : Nat} (hk : k < a.length) :
    l.get? k = a.get? k := by
  obtain ⟨t, ht⟩ := h
  rw [← ht]
  exact get?_append_l hk

theorem get?_append_r0 (a b : List Char) : (a ++ b).get? a.length = b.get? 0 := by
  rw [List.get?_eq_getElem?, List.get?_eq_getElem?,
    List.getElem?_append_right le_rfl, Nat.sub_self]

theorem beginTok_ne_nil : ∀ e ∈ verbatimEnvs, beginTok e ≠ [] := by decide

theorem endTok_ne_nil : ∀ e ∈ verbatimEnvs, endTok e ≠ [] := by decide

theorem beginTok_no_nl : ∀ e ∈ verbatimEnvs, '\n' ∉ beginTok e := by decide

theorem endTok_no_nl : ∀ e ∈ verbatimEnvs, '\n' ∉ endTok e := by decide

theorem beginTok_head_bs : ∀ e ∈ verbatimEnvs, (beginTok e).get? 0 = some '\\' := by
  decide

theorem beginTok_bs_only_head :
    ∀ e ∈ verbatimEnvs, ∀ k, k < (beginTok e).length → 0 < k →
      (beginTok e).get? k ≠ some '\\' := by decide

theorem endTok_bs_only_head :
    ∀ e ∈ verbatimEnvs, ∀ k, k < (endTok e).length → 0 < k →
      (endTok e).get? k ≠ some '\\' := by decide

theorem beginTok_brace_only_last :
    ∀ e ∈ verbatimEnvs, ∀ k, k < (beginTok e).length → k + 1 < (beginTok e).length →
      (beginTok e).get? k ≠ some '}' := by decide

theorem endTok_brace_only_last :
    ∀ e ∈ verbatimEnvs, ∀ k, k < (endTok e).length → k + 1 < (endTok e).length →
      (endTok e).get? k ≠ some '}' := by decide

theorem endTok_last_brace : ∀ e ∈ verbatimEnvs, (endTok e).getLast? = some '}' := by
  decide

theorem beginTok_get7_ne :
    ∀ x ∈ verbatimEnvs, ∀ y ∈ verbatimEnvs, x ≠ y →
      (beginTok x).get? 7 ≠ (beginTok y).get? 7 := by decide

theorem beginTok_len7 : ∀ e ∈ verbatimEnvs, 7 < (beginTok e).length := by decide

theorem tryVerbMatchAt_sound2 :
    ∀ (envs : List (List Char)) l block after,
      tryVerbMatchAt envs l = some (block, after) →
      ∃ e ∈ envs, ∃ mid,
        block = beginTok e ++ mid ++ endTok e ∧
        l = block ++ after ∧
        splitFirstTok (endTok e) (l.drop (beginTok e).length) =
          some (mid, after) := by
  intro envs
  induction envs with
  | nil =>
    intro l block after h
    rw [tryVerbMatchAt] at h
    exact Option.noConfusion h
  | cons e tl ih =>
    intro l block after h
    rw [tryVerbMatchAt] at h
    by_cases hp : (beginTok e).isPrefixOf l = true
    · rw [if_pos hp] at h
      rcases hs : splitFirstTok (endTok e) (l.drop (beginTok e).length) with _ | ⟨m, af⟩
      · rw [hs] at h
        obtain ⟨e', he', mid, h1, h2, h3⟩ := ih l block after h
        exact ⟨e', List.mem_cons_of_mem _ he', mid, h1, h2, h3⟩
      · rw [hs] at h
        have h' : some (beginTok e ++ m ++ endTok e, af) = some (block, after) := h
        have h2 := Option.some.inj h'
        have hb : beginTok e ++ m ++ endTok e = block := congrArg Prod.fst h2
        have ha : af = after := congrArg Prod.snd h2
        refine ⟨e, List.mem_cons_self _ _, m, hb.symm, ?_, by rw [hs, ha]⟩
        obtain ⟨t, htp⟩ := List.isPrefixOf_iff_prefix.mp hp
        have hdrop : l.drop (beginTok e).length = t := by
          rw [← htp]
          exact List.drop_left _ _
        have hsound := splitFirstTok_sound (endTok e) _ m af hs
        rw [hdrop] at hsound
        rw [← htp, hsound, ← hb, ← ha]
        simp [List.append_assoc]
    · rw [if_neg hp] at h
      obtain ⟨e', he', mid, h1, h2, h3⟩ := ih l block after h
      exact ⟨e', List.mem_cons_of_mem _ he', mid, h1, h2, h3⟩

theorem tryVerbMatchAt_isSome_of :
    ∀ (envs : List (List Char)) (e l : List Char), e ∈ envs →
      (beginTok e).isPrefixOf l = true →
      (splitFirstTok (endTok e) (l.drop (beginTok e).length)).isSome = true →
      (tryVerbMatchAt envs l).isSome = true := by
  intro envs
  induction envs with
  | nil =>
    intro e l he
    exact absurd he (List.not_mem_nil e)
  | cons e₀ tl ih =>
    intro e l he hp hs
    rw [tryVerbMatchAt]
    by_cases hp0 : (beginTok e₀).isPrefixOf l = true
    · rw [if_pos hp0]
      rcases hs0 : splitFirstTok (endTok e₀) (l.drop (beginTok e₀).length) with _ | ⟨m, af⟩
      · rcases List.mem_cons.mp he with he0 | he0
        · subst he0
          rw [hs0] at hs
          simp at hs
        · exact ih e l he0 hp hs
      · rfl
    · rw [if_neg hp0]
      rcases List.mem_cons.mp he with he0 | he0
      · subst he0
        exact absurd hp hp0
      · exact ih e l he0 hp hs

theorem tryVerbMatchAt_block :
    ∀ (envs : List (List Char)) (e₀ mid R : List Char), e₀ ∈ envs →
      (∀ e₁ ∈ envs, e₁ ≠ e₀ →
        (beginTok e₁).isPrefixOf (beginTok e₀ ++ (mid ++ (endTok e₀ ++ R))) = false) →
      splitFirstTok (endTok e₀) (mid ++ (endTok e₀ ++ R)) = some (mid, R) →
      tryVerbMatchAt envs (beginTok e₀ ++ (mid ++ (endTok e₀ ++ R))) =
        some (beginTok e₀ ++ mid ++ endTok e₀, R) := by
  intro envs
  induction envs with
  | nil =>
    intro e₀ mid R he
    exact absurd he (List.not_mem_nil _)
  | cons e₁ tl ih =>
    intro e₀ mid R he hfail hsp
    rw [tryVerbMatchAt]
    by_cases heq : e₁ = e₀
    · subst heq
      rw [if_pos (List.isPrefixOf_iff_prefix.mpr (List.prefix_append _ _)),
        List.drop_left, hsp]
    · have hf := hfail e₁ (List.mem_cons_self _ _) heq
      rw [if_neg (by rw [hf]; simp)]
      have he' : e₀ ∈ tl := by
        rcases List.mem_cons.mp he with hz | hz
        · exact absurd hz.symm heq
        · exact hz
      exact ih e₀ mid R he'
        (fun x hx hne => hfail x (List.mem_cons_of_mem _ hx) hne) hsp

theorem findVerbMatch_sound :
    ∀ text pre block rest, findVerbMatch text = some (pre, block, rest) →
      text = pre ++ block ++ rest ∧
      ∃ e ∈ verbatimEnvs, ∃ mid,
        block = beginTok e ++ mid ++ endTok e ∧
        splitFirstTok (endTok e) ((block ++ rest).drop (beginTok e).length) =
          some (mid, rest) := by
  intro text
  induction text with
  | nil =>
    intro pre block rest h
    rw [findVerbMatch] at h
    exact Option.noConfusion h
  | cons c r ih =>
    intro pre block rest h
    rw [findVerbMatch] at h
    rcases htm : tryVerbMatchAt verbatimEnvs (c :: r) with _ | ⟨blk, aft⟩
    · rw [htm] at h
      rcases hfm : findVerbMatch r with _ | ⟨p3⟩
      · rw [hfm] at h
        exact Option.noConfusion h
      · obtain ⟨p1, b1, r1⟩ := p3
        rw [hfm] at h
        have h' : some (c :: p1, b1, r1) = some (pre, block, rest) := h
        have h2 := Option.some.inj h'
        have hp : c :: p1 = pre := congrArg (fun x => x.1) h2
        have hb : b1 = block := congrArg (fun x => x.2.1) h2
        have hr : r1 = rest := congrArg (fun x => x.2.2) h2
        obtain ⟨hteq, e, he, mid, hblock, hsp⟩ := ih p1 b1 r1 (by rw [hfm])
        refine ⟨?_, e, he, mid, by rw [← hb]; exact hblock,
          by rw [← hb, ← hr]; exact hsp⟩
        rw [← hp, ← hb, ← hr, List.cons_append, List.cons_append, hteq]
    · rw [htm] at h
      have h' : some (([] : List Char), blk, aft) = some (pre, block, rest) := h
      have h2 := Option.some.inj h'
      have hp : ([] : List Char) = pre := congrArg (fun x => x.1) h2
      have hb : blk = block := congrArg (fun x => x.2.1) h2
      have hr : aft = rest := congrArg (fun x => x.2.2) h2
      obtain ⟨e, he, mid, hblock, hleq, hsp⟩ :=
        tryVerbMatchAt_sound2 verbatimEnvs (c :: r) blk aft (by rw [htm])
      refine ⟨?_, e, he, mid, by rw [← hb]; exact hblock, ?_⟩
      · rw [← hp, ← hb, ← hr, List.nil_append]
        exact hleq
      · rw [← hb, ← hr, ← hleq]
        exact hsp

theorem findVerbMatch_leftmost :
    ∀ text pre block rest, findVerbMatch text = some (pre, block, rest) →
      ∀ i, i < pre.length → tryVerbMatchAt verbatimEnvs (text.drop i) = none := by
  intro text
  induction text with
  | nil =>
    intro pre block rest h
    rw [findVerbMatch] at h
    exact Option.noConfusion h
  | cons c r ih =>
    intro pre block rest h i hi
    rw [findVerbMatch] at h
    rcases htm : tryVerbMatchAt verbatimEnvs (c :: r) with _ | ⟨blk, aft⟩
    · rw [htm] at h
      rcases hfm : findVerbMatch r with _ | ⟨p3⟩
      · rw [hfm] at h
        exact Option.noConfusion h
      · obtain ⟨p1, b1, r1⟩ := p3
        rw [hfm] at h
        have h' : some (c :: p1, b1, r1) = some (pre, block, rest) := h
        have hp : c :: p1 = pre := congrArg (fun x => x.1) (Option.some.inj h')
        cases i with
        | zero =>
          rw [List.drop_zero]
          exact htm
        | succ i' =>
          rw [List.drop_succ_cons]
          apply ih p1 b1 r1 (by rw [hfm]) i'
          rw [← hp] at hi
          simpa using hi
    · rw [htm] at h
      have h' : some (([] : List Char), blk, aft) = some (pre, block, rest) := h
      have hp : ([] : List Char) = pre := congrArg (fun x => x.1) (Option.some.inj h')
      rw [← hp] at hi
      simp at hi

theorem tryVerbMatchAt_verb_nil : tryVerbMatchAt verbatimEnvs [] = none := by decide

theorem findVerbMatch_none :
    ∀ text, findVerbMatch text = none →
      ∀ e ∈ verbatimEnvs, ∀ s m u, text ≠ s ++ beginTok e ++ m ++ endTok e ++ u := by
  intro text
  induction text with
  | nil =>
    intro _ e he s m u heq
    have h2 := List.append_eq_nil.mp heq.symm
    have h3 := List.append_eq_nil.mp h2.1
    exact endTok_ne_nil e he h3.2
  | cons c r ih =>
    intro h e he s m u heq
    rw [findVerbMatch] at h
    rcases htm : tryVerbMatchAt verbatimEnvs (c :: r) with _ | ⟨blk, aft⟩
    · rw [htm] at h
      have hfm : findVerbMatch r = none := by
        rcases hfm0 : findVerbMatch r with _ | p3
        · rfl
        · rw [hfm0] at h
          exact Option.noConfusion h
      cases s with
      | nil =>
        rw [List.nil_append] at heq
        have hpref : (beginTok e).isPrefixOf (c :: r) = true := by
          rw [List.isPrefixOf_iff_prefix, heq]
          refine ⟨m ++ (endTok e ++ u), ?_⟩
          simp [List.append_assoc]
        have hdrop : (c :: r).drop (beginTok e).length = m ++ (endTok e ++ u) := by
          rw [heq]
          have hshape : beginTok e ++ m ++ endTok e ++ u =
              beginTok e ++ (m ++ (endTok e ++ u)) := by
            simp [List.append_assoc]
          rw [hshape]
          exact List.drop_left _ _
        have hsome := tryVerbMatchAt_isSome_of verbatimEnvs e (c :: r) he hpref (by
          rw [hdrop]
          exact splitFirstTok_complete _ _ ⟨m, u, List.append_assoc m (endTok e) u⟩)
        rw [htm] at hsome
        simp at hsome
      | cons d s' =>
        simp only [List.cons_append] at heq
        injection heq with hh ht
        exact ih hfm e he s' m u ht
    · rw [htm] at h
      exact Option.noConfusion h

theorem findVerbMatch_eq_at :
    ∀ (P suffix block' after' : List Char),
      (∀ i, i < P.length → tryVerbMatchAt verbatimEnvs ((P ++ suffix).drop i) = none) →
      tryVerbMatchAt verbatimEnvs suffix = some (block', after') →
      findVerbMatch (P ++ suffix) = some (P, block', after') := by
  intro P
  induction P with
  | nil =>
    intro suffix block' after' _ hyes
    rw [List.nil_append]
    cases suffix with
    | nil =>
      rw [tryVerbMatchAt_verb_nil] at hyes
      exact Option.noConfusion hyes
    | cons c r =>
      rw [findVerbMatch, hyes]
  | cons d P' ih =>
    intro suffix block' after' hno hyes
    rw [List.cons_append, findVerbMatch]
    have h0 := hno 0 (by simp)
    rw [List.drop_zero, List.cons_append] at h0
    rw [h0]
    have hrec := ih suffix block' after' (fun i hi => by
      have h1 := hno (i + 1) (by simpa using Nat.succ_lt_succ hi)
      rwa [List.cons_append, List.drop_succ_cons] at h1) hyes
    rw [hrec]
    rfl

theorem scpv_nil : ∀ f, stripCommentsPV f [] = [] := by
  intro f
  cases f with
  | zero => rfl
  | succ f => rfl

theorem scpv_of_none {text : List Char} (h : findVerbMatch text = none) :
    ∀ f, stripCommentsPV f text = stripCommentsByLine text := by
  intro f
  cases f with
  | zero => rfl
  | succ f => rw [stripCommentsPV, h]

theorem scpv_of_some {text pre block rest : List Char}
    (h : findVerbMatch text = some (pre, block, rest)) (f : Nat) :
    stripCommentsPV (f + 1) text =
      stripCommentsByLine pre ++ block ++ stripCommentsPV f rest := by
  rw [stripCommentsPV, h]

theorem getLast?_eq_get? (l : List Char) : l.getLast? = l.get? (l.length - 1) := by
  rw [List.getLast?_eq_getElem?, List.get?_eq_getElem?]

theorem block_ne_nil {e : List Char} (mid : List Char) (he : e ∈ verbatimEnvs) :
    beginTok e ++ mid ++ endTok e ≠ [] := by
  intro h
  have h2 := List.append_eq_nil.mp h
  have h3 := List.append_eq_nil.mp h2.1
  exact beginTok_ne_nil e he h3.1

theorem block_head_bs {e : List Char} (mid : List Char) (he : e ∈ verbatimEnvs) :
    (beginTok e ++ mid ++ endTok e).get? 0 = some '\\' := by
  have h1 : 0 < (beginTok e).length := by
    have := beginTok_len7 e he
    omega
  rw [get?_append_l (by rw [List.length_append]; omega), get?_append_l h1]
  exact beginTok_head_bs e he

theorem block_last_brace {e : List Char} (mid : List Char) (he : e ∈ verbatimEnvs) :
    (beginTok e ++ mid ++ endTok e).getLast? = some '}' := by
  rw [List.getLast?_append_of_ne_nil _ (endTok_ne_nil e he)]
  exact endTok_last_brace e he

/-- A nonempty newline-free token whose backslash sits only at the head and
whose closing brace sits only at the end cannot be created by
`strip_comments_preserve_verbatim`: any such infix of the output occurs in the
input. -/
theorem nlOnly_of_sub {x text : List Char}
    (hnl : ∀ c ∈ text, pyIsLineBreak c = true → c = '\n')
    (hsub : ∀ c ∈ x, c ∈ text) :
    ∀ c ∈ x, pyIsLineBreak c = true → c = '\n' :=
  fun c hc => hnl c (hsub c hc)

theorem scpv_infix_transfer :
    ∀ (f : Nat) (text tok : List Char),
      (∀ c ∈ text, pyIsLineBreak c = true → c = '\n') →
      tok ≠ [] → '\n' ∉ tok →
      (∀ k, k < tok.length → 0 < k → tok.get? k ≠ some '\\') →
      (∀ k, k < tok.length → k + 1 < tok.length → tok.get? k ≠ some '}') →
      tok <:+: stripCommentsPV f text → tok <:+: text := by
  intro f
  induction f with
  | zero =>
    intro text tok hnl h0 h1 _ _ hin
    exact scb_infix_transfer text.length text tok le_rfl hnl h0 h1 hin
  | succ f ih =>
    intro text tok hnl h0 h1 h2 h3 hin
    rcases hfm : findVerbMatch text with _ | ⟨p3⟩
    · rw [scpv_of_none hfm] at hin
      exact scb_infix_transfer text.length text tok le_rfl hnl h0 h1 hin
    · obtain ⟨pre, block, rest⟩ := p3
      rw [scpv_of_some hfm f] at hin
      obtain ⟨hteq, e, he, mid, hblock, _⟩ :=
        findVerbMatch_sound text pre block rest hfm
      have hnlpre : ∀ c ∈ pre, pyIsLineBreak c = true → c = '\n' :=
        nlOnly_of_sub hnl (fun c hc => by
          rw [hteq]
          exact List.mem_append_left _ (List.mem_append_left _ hc))
      have hnlrest : ∀ c ∈ rest, pyIsLineBreak c = true → c = '\n' :=
        nlOnly_of_sub hnl (fun c hc => by
          rw [hteq]
          exact List.mem_append_right _ hc)
      rw [List.append_assoc] at hin
      rcases infix_append_cases hin with hA | hBC
      · have h4 := scb_infix_transfer pre.length pre tok le_rfl hnlpre h0 h1 hA
        rw [hteq, List.append_assoc]
        exact h4.trans (infix_append_right_self _ _)
      rcases hBC with hBC | ⟨t1, t2, htt, ht1, ht2, hsuf, hpre2⟩
      · rcases infix_append_cases hBC with hB | hRR
        · rw [hteq]
          exact hB.trans ⟨pre, rest, by simp [List.append_assoc]⟩
        rcases hRR with hR | ⟨t1, t2, htt, ht1, ht2, hsuf, hpre2⟩
        · have h4 := ih rest tok hnlrest h0 h1 h2 h3 hR
          rw [hteq]
          exact h4.trans ⟨pre ++ block, [], by simp⟩
        · exfalso
          have hbl : block.getLast? = some '}' := by
            rw [hblock]
            exact block_last_brace mid he
          have ht1l : t1.getLast? = some '}' := by
            rw [← suffix_getLast? hsuf ht1, hbl]
          have ht1pos : 0 < t1.length := List.length_pos.mpr ht1
          have ht2pos : 0 < t2.length := List.length_pos.mpr ht2
          have htlen : tok.length = t1.length + t2.length := by
            rw [htt, List.length_append]
          have hget : tok.get? (t1.length - 1) = some '}' := by
            rw [htt, get?_append_l (by omega), ← ht1l]
            exact (getLast?_eq_get? t1).symm
          exact h3 (t1.length - 1) (by omega) (by omega) hget
      · exfalso
        have hbne : block ≠ [] := by
          rw [hblock]
          exact block_ne_nil mid he
        have hb0 : block.get? 0 = some '\\' := by
          rw [hblock]
          exact block_head_bs mid he
        have ht20 : t2.get? 0 = some '\\' := by
          have h4 := prefix_get?_eq hpre2 (List.length_pos.mpr ht2)
          rw [← h4, get?_append_l (List.length_pos.mpr hbne)]
          exact hb0
        have hget : tok.get? t1.length = some '\\' := by
          rw [htt, get?_append_r0]
          exact ht20
        have ht1pos : 0 < t1.length := List.length_pos.mpr ht1
        have ht2pos : 0 < t2.length := List.length_pos.mpr ht2
        have htlen : tok.length = t1.length + t2.length := by
          rw [htt, List.length_append]
        exact h2 t1.length (by omega) ht1pos hget

/-- If an occurrence of a verbatim `\begin` token in `pre` has its matching
`\end` token somewhere after it, the leftmost-match property of the first pass
is contradicted. -/
theorem early_contra
    (pre block rest γ' δ' e : List Char)
    (he : e ∈ verbatimEnvs)
    (hpre : pre = γ' ++ beginTok e ++ δ')
    (hend : endTok e <:+: δ' ++ (block ++ rest))
    (hlm : ∀ i, i < pre.length →
      tryVerbMatchAt verbatimEnvs ((pre ++ block ++ rest).drop i) = none) :
    False := by
  have hblen : 0 < (beginTok e).length := by
    have := beginTok_len7 e he
    omega
  have hilt : γ'.length < pre.length := by
    have h1 := congrArg List.length hpre
    rw [List.length_append, List.length_append] at h1
    omega
  have hshape : pre ++ block ++ rest =
      γ' ++ (beginTok e ++ (δ' ++ (block ++ rest))) := by
    rw [hpre]
    simp [List.append_assoc]
  have hdrop : (pre ++ block ++ rest).drop γ'.length =
      beginTok e ++ (δ' ++ (block ++ rest)) := by
    rw [hshape]
    exact List.drop_left _ _
  have hsome := tryVerbMatchAt_isSome_of verbatimEnvs e
    ((pre ++ block ++ rest).drop γ'.length) he
    (by rw [hdrop, List.isPrefixOf_iff_prefix]
        exact List.prefix_append _ _)
    (by rw [hdrop, List.drop_left]
        exact splitFirstTok_complete _ _ hend)
  rw [hlm γ'.length hilt] at hsome
  simp at hsome

/-- No position strictly inside the stripped prefix of the second pass can
start a verbatim match: such a match would yield begin/end tokens that
transfer back to the input and contradict the first pass's leftmost match. -/
theorem no_early_match
    (pre block rest R mid e₀ : List Char)
    (hnlpre : ∀ c ∈ pre, pyIsLineBreak c = true → c = '\n')
    (he₀ : e₀ ∈ verbatimEnvs)
    (hblock : block = beginTok e₀ ++ mid ++ endTok e₀)
    (hlm : ∀ i, i < pre.length →
      tryVerbMatchAt verbatimEnvs ((pre ++ block ++ rest).drop i) = none)
    (hR : ∀ tok, tok ≠ [] → '\n' ∉ tok →
      (∀ k, k < tok.length → 0 < k → tok.get? k ≠ some '\\') →
      (∀ k, k < tok.length → k + 1 < tok.length → tok.get? k ≠ some '}') →
      tok <:+: R → tok <:+: rest) :
    ∀ i, i < (stripCommentsByLine pre).length →
      tryVerbMatchAt verbatimEnvs
        ((stripCommentsByLine pre ++ block ++ R).drop i) = none := by
  intro i hi
  rcases htm : tryVerbMatchAt verbatimEnvs
      ((stripCommentsByLine pre ++ block ++ R).drop i) with _ | ⟨blk', aft'⟩
  · rfl
  · exfalso
    obtain ⟨e, he, m, hblk, hleq, _⟩ :=
      tryVerbMatchAt_sound2 verbatimEnvs _ blk' aft' htm
    have h5 : stripCommentsByLine pre ++ block ++ R =
        (stripCommentsByLine pre ++ block ++ R).take i ++ (blk' ++ aft') := by
      rw [← hleq]
      exact (List.take_append_drop i _).symm
    have hocc : (stripCommentsByLine pre ++ block ++ R).take i ++ beginTok e ++
        (m ++ (endTok e ++ aft')) = stripCommentsByLine pre ++ (block ++ R) := by
      have hstep : (stripCommentsByLine pre ++ block ++ R).take i ++ beginTok e ++
          (m ++ (endTok e ++ aft')) =
          (stripCommentsByLine pre ++ block ++ R).take i ++ (blk' ++ aft') := by
        rw [hblk]
        simp [List.append_assoc]
      rw [hstep, ← h5, List.append_assoc]
    have hslen : ((stripCommentsByLine pre ++ block ++ R).take i).length = i := by
      rw [List.length_take]
      have h6 : i < (stripCommentsByLine pre ++ block ++ R).length := by
        rw [List.length_append, List.length_append]
        omega
      omega
    rcases append_occ_cases hocc with ⟨γ, hx, hbb⟩ | ⟨δ, hα, _⟩ |
        ⟨t1, t2, htt, ht1, ht2, hsuf2, hpre2⟩
    · -- the begin token lies inside the stripped prefix
      have hocc2 : m ++ endTok e ++ aft' = γ ++ (block ++ R) := by
        rw [List.append_assoc]
        exact hbb
      rcases append_occ_cases hocc2 with ⟨γ₂, hx2, _⟩ | ⟨δ₂, _, hy2⟩ |
          ⟨s1, s2, hstt, hs1, hs2, hsf2, hpf2⟩
      · -- matching end token inside the stripped prefix too: transfer both
        obtain ⟨γ', δ', hpre', htr⟩ := scb_occ_transfer pre.length pre
          (beginTok e) _ γ le_rfl hnlpre (beginTok_ne_nil e he)
          (beginTok_no_nl e he) hx
        have hendγ : endTok e <:+: γ := ⟨m, γ₂, by rw [← hx2]⟩
        have hend : endTok e <:+: δ' ++ (block ++ rest) :=
          (htr (endTok e) (endTok_ne_nil e he) (endTok_no_nl e he) hendγ).trans
            (infix_append_right_self _ _)
        exact early_contra pre block rest γ' δ' e he hpre' hend hlm
      · -- matching end token in `block ++ R`
        obtain ⟨γ', δ', hpre'⟩ := scb_infix_transfer pre.length pre (beginTok e)
          le_rfl hnlpre (beginTok_ne_nil e he) (beginTok_no_nl e he)
          ⟨_, γ, hx.symm⟩
        rcases append_occ_cases hy2.symm with ⟨γ₃, hx3, _⟩ | ⟨δ₃, _, hy3⟩ |
            ⟨s1, s2, hstt, hs1, hs2, hsf3, hpf3⟩
        · -- end token inside the block: it survives in the input
          have hendblk : endTok e <:+: block := ⟨δ₂, γ₃, by rw [← hx3]⟩
          have hend : endTok e <:+: δ' ++ (block ++ rest) :=
            hendblk.trans ⟨δ', rest, by simp [List.append_assoc]⟩
          exact early_contra pre block rest γ' δ' e he hpre'.symm hend hlm
        · -- end token inside `R`: transfer through the recursive output
          have hendR : endTok e <:+: R := ⟨δ₃, _, by rw [← hy3]⟩
          have hendrest : endTok e <:+: rest := hR (endTok e)
            (endTok_ne_nil e he) (endTok_no_nl e he)
            (endTok_bs_only_head e he) (endTok_brace_only_last e he) hendR
          have hend : endTok e <:+: δ' ++ (block ++ rest) :=
            hendrest.trans ⟨δ' ++ block, [], by simp [List.append_assoc]⟩
          exact early_contra pre block rest γ' δ' e he hpre'.symm hend hlm
        · -- end token straddling block and `R`: blocked by the final brace
          have hbl : block.getLast? = some '}' := by
            rw [hblock]
            exact block_last_brace mid he₀
          have hs1suf : s1 <:+ block := ⟨δ₂, hsf3.symm⟩
          have hs1l : s1.getLast? = some '}' := by
            rw [← suffix_getLast? hs1suf hs1, hbl]
          have hs1pos : 0 < s1.length := List.length_pos.mpr hs1
          have hs2pos : 0 < s2.length := List.length_pos.mpr hs2
          have hstlen : (endTok e).length = s1.length + s2.length := by
            rw [hstt, List.length_append]
          have hget : (endTok e).get? (s1.length - 1) = some '}' := by
            rw [hstt, get?_append_l (by omega), ← hs1l]
            exact (getLast?_eq_get? s1).symm
          exact endTok_brace_only_last e he (s1.length - 1) (by omega)
            (by omega) hget
      · -- end token straddling the stripped prefix and `block ++ R`
        have hbne : block ≠ [] := by
          rw [hblock]
          exact block_ne_nil mid he₀
        have hb0 : block.get? 0 = some '\\' := by
          rw [hblock]
          exact block_head_bs mid he₀
        have hs20 : s2.get? 0 = some '\\' := by
          have h7 : (block ++ R).get? 0 = s2.get? 0 := by
            rw [hpf2, get?_append_l (List.length_pos.mpr hs2)]
          rw [← h7, get?_append_l (List.length_pos.mpr hbne)]
          exact hb0
        have hget : (endTok e).get? s1.length = some '\\' := by
          rw [hstt, get?_append_r0]
          exact hs20
        have hs2pos : 0 < s2.length := List.length_pos.mpr hs2
        have hstlen : (endTok e).length = s1.length + s2.length := by
          rw [hstt, List.length_append]
        exact endTok_bs_only_head e he s1.length (by omega)
          (List.length_pos.mpr hs1) hget
    · -- the begin token would start at or after the block: impossible
      have hlen2 := congrArg List.length hα
      rw [hslen, List.length_append] at hlen2
      omega
    · -- the begin token straddling the stripped prefix and the block
      have hbne : block ≠ [] := by
        rw [hblock]
        exact block_ne_nil mid he₀
      have hb0 : block.get? 0 = some '\\' := by
        rw [hblock]
        exact block_head_bs mid he₀
      have ht20 : t2.get? 0 = some '\\' := by
        have h7 : (block ++ R).get? 0 = t2.get? 0 := by
          rw [hpre2, get?_append_l (List.length_pos.mpr ht2)]
        rw [← h7, get?_append_l (List.length_pos.mpr hbne)]
        exact hb0
      have hget : (beginTok e).get? t1.length = some '\\' := by
        rw [htt, get?_append_r0]
        exact ht20
      have ht2pos : 0 < t2.length := List.length_pos.mpr ht2
      have htlen : (beginTok e).length = t1.length + t2.length := by
        rw [htt, List.length_append]
      exact beginTok_bs_only_head e he t1.length (by omega)
        (List.length_pos.mpr ht1) hget

/-- Core induction: a second pass of the fueled `strip_comments_preserve_verbatim`
loop over a first pass's output reproduces that output. -/
theorem scpv_idem_aux : ∀ (n : Nat) (text : List Char) (f g : Nat),
    (∀ c ∈ text, pyIsLineBreak c = true → c = '\n') →
    text.length ≤ n → text.length ≤ f →
    (stripCommentsPV f text).length ≤ g →
    stripCommentsPV g (stripCommentsPV f text) = stripCommentsPV f text := by
  intro n
  induction n with
  | zero =>
    intro text f g _ hn _ _
    have h0 : text = [] := List.eq_nil_of_length_eq_zero (Nat.le_zero.mp hn)
    subst h0
    rw [scpv_nil f, scpv_nil g]
  | succ n ih =>
    intro text f g hnl hn hf hg
    rcases hfm : findVerbMatch text with _ | ⟨p3⟩
    · rw [scpv_of_none hfm f] at hg ⊢
      have hnone : findVerbMatch (stripCommentsByLine text) = none := by
        rcases hfm2 : findVerbMatch (stripCommentsByLine text) with _ | ⟨q3⟩
        · rfl
        · exfalso
          obtain ⟨p, blk, rst⟩ := q3
          obtain ⟨hteq, e, he, mid, hblock, _⟩ :=
            findVerbMatch_sound _ p blk rst hfm2
          have hocc : stripCommentsByLine text =
              p ++ beginTok e ++ (mid ++ (endTok e ++ rst)) := by
            rw [hteq, hblock]
            simp [List.append_assoc]
          obtain ⟨γ', δ', hpre', htr⟩ := scb_occ_transfer text.length text
            (beginTok e) p _ le_rfl hnl (beginTok_ne_nil e he)
            (beginTok_no_nl e he) hocc
          have hend : endTok e <:+: δ' :=
            htr (endTok e) (endTok_ne_nil e he) (endTok_no_nl e he)
              ⟨mid, rst, List.append_assoc mid (endTok e) rst⟩
          obtain ⟨s2, u2, hs2⟩ := hend
          apply findVerbMatch_none text hfm e he γ' s2 u2
          rw [hpre', ← hs2]
          simp [List.append_assoc]
      rw [scpv_of_none hnone g, scb_idem text hnl]
    · obtain ⟨pre, block, rest⟩ := p3
      obtain ⟨hteq, e, he, mid, hblock, hsp⟩ :=
        findVerbMatch_sound text pre block rest hfm
      cases f with
      | zero =>
        exfalso
        have h0 : text = [] := List.eq_nil_of_length_eq_zero (Nat.le_zero.mp hf)
        subst h0
        rw [findVerbMatch] at hfm
        exact Option.noConfusion hfm
      | succ f₀ =>
        rw [scpv_of_some hfm f₀] at hg ⊢
        have hnlpre : ∀ c ∈ pre, pyIsLineBreak c = true → c = '\n' :=
          nlOnly_of_sub hnl (fun c hc => by
            rw [hteq]
            exact List.mem_append_left _ (List.mem_append_left _ hc))
        have hnlrest : ∀ c ∈ rest, pyIsLineBreak c = true → c = '\n' :=
          nlOnly_of_sub hnl (fun c hc => by
            rw [hteq]
            exact List.mem_append_right _ hc)
        have hbne : block ≠ [] := by
          rw [hblock]
          exact block_ne_nil mid he
        have hbpos : 0 < block.length := List.length_pos.mpr hbne
        have hlentext := congrArg List.length hteq
        rw [List.length_append, List.length_append] at hlentext
        have hrn : rest.length ≤ n := by omega
        have hrf : rest.length ≤ f₀ := by omega
        have hglen := hg
        rw [List.length_append, List.length_append] at hglen
        cases g with
        | zero => omega
        | succ g₀ =>
          have hRg : (stripCommentsPV f₀ rest).length ≤ g₀ := by omega
          have hlm := findVerbMatch_leftmost text pre block rest hfm
          rw [hteq] at hlm
          have hR : ∀ tok, tok ≠ [] → '\n' ∉ tok →
              (∀ k, k < tok.length → 0 < k → tok.get? k ≠ some '\\') →
              (∀ k, k < tok.length → k + 1 < tok.length →
                tok.get? k ≠ some '}') →
              tok <:+: stripCommentsPV f₀ rest → tok <:+: rest :=
            fun tok a b c d hx => scpv_infix_transfer f₀ rest tok hnlrest a b c d hx
          have hno := no_early_match pre block rest (stripCommentsPV f₀ rest)
            mid e hnlpre he hblock hlm hR
          have hsp' : splitFirstTok (endTok e)
              (mid ++ (endTok e ++ rest)) = some (mid, rest) := by
            have hd : (block ++ rest).drop (beginTok e).length =
                mid ++ (endTok e ++ rest) := by
              rw [hblock]
              have hshape : (beginTok e ++ mid ++ endTok e) ++ rest =
                  beginTok e ++ (mid ++ (endTok e ++ rest)) := by
                simp [List.append_assoc]
              rw [hshape]
              exact List.drop_left _ _
            rw [← hd]
            exact hsp
          have hmin : ∀ a₁ b₁,
              mid ++ (endTok e ++ stripCommentsPV f₀ rest) =
                a₁ ++ endTok e ++ b₁ → mid.length ≤ a₁.length := by
            intro a₁ b₁ hdec
            by_contra hlt
            push_neg at hlt
            have hocc5 : (mid ++ endTok e) ++ stripCommentsPV f₀ rest =
                a₁ ++ endTok e ++ b₁ := by
              rw [List.append_assoc]
              exact hdec
            have hlen5 : a₁.length + (endTok e).length ≤
                (mid ++ endTok e).length := by
              rw [List.length_append]
              omega
            obtain ⟨b₂, hocc6⟩ := occ_transfer_prefix hocc5 hlen5
              (endTok_ne_nil e he) rest
            have hfirst := splitFirstTok_leftmost (endTok e)
              (mid ++ (endTok e ++ rest)) mid rest hsp' a₁ b₂ (by
                rw [← hocc6]
                simp [List.append_assoc])
            omega
          have hsp2 : splitFirstTok (endTok e)
              (mid ++ (endTok e ++ stripCommentsPV f₀ rest)) =
              some (mid, stripCommentsPV f₀ rest) :=
            splitFirstTok_of_prefix_min _ _ _ _ (by simp [List.append_assoc]) hmin
          have hfail : ∀ e₁ ∈ verbatimEnvs, e₁ ≠ e →
              (beginTok e₁).isPrefixOf
                (beginTok e ++ (mid ++ (endTok e ++ stripCommentsPV f₀ rest))) =
                false := by
            intro e₁ he₁ hne
            by_contra hcon
            have hpre1 : beginTok e₁ <+:
                beginTok e ++ (mid ++ (endTok e ++ stripCommentsPV f₀ rest)) := by
              apply List.isPrefixOf_iff_prefix.mp
              cases hz : (beginTok e₁).isPrefixOf
                  (beginTok e ++ (mid ++ (endTok e ++ stripCommentsPV f₀ rest)))
              · exact absurd hz hcon
              · rfl
            have h71 := beginTok_len7 e₁ he₁
            have h70 := beginTok_len7 e he
            have hg1 : (beginTok e ++
                (mid ++ (endTok e ++ stripCommentsPV f₀ rest))).get? 7 =
                (beginTok e₁).get? 7 := prefix_get?_eq hpre1 (by omega)
            rw [get?_append_l (by omega)] at hg1
            exact beginTok_get7_ne e₁ he₁ e he hne hg1.symm
          have hyes := tryVerbMatchAt_block verbatimEnvs e mid
            (stripCommentsPV f₀ rest) he hfail hsp2
          have hshape2 : stripCommentsByLine pre ++ block ++
              stripCommentsPV f₀ rest =
              stripCommentsByLine pre ++ (beginTok e ++
                (mid ++ (endTok e ++ stripCommentsPV f₀ rest))) := by
            rw [hblock]
            simp [List.append_assoc]
          have hfm2 : findVerbMatch (stripCommentsByLine pre ++ block ++
              stripCommentsPV f₀ rest) =
              some (stripCommentsByLine pre, block, stripCommentsPV f₀ rest) := by
            rw [hshape2]
            have hfm3 := findVerbMatch_eq_at (stripCommentsByLine pre)
              (beginTok e ++ (mid ++ (endTok e ++ stripCommentsPV f₀ rest)))
              (beginTok e ++ mid ++ endTok e) (stripCommentsPV f₀ rest)
              (by
                intro i hi
                have h8 := hno i hi
                rw [hshape2] at h8
                exact h8) hyes
            rw [hfm3, ← hblock]
          rw [scpv_of_some hfm2 g₀, scb_idem pre hnlpre,
            ih rest f₀ g₀ hnlrest hrn hrf hRg]

/-- C6 counterexample: comment stripping is NOT idempotent for every input.
`splitlines` also breaks at `'\r'`; the comment cut drops that terminator
(`newline = chr(10) if line.endswith(chr(10)) else ''`), merging the line with
its successor, and the merge here places a second backslash before the
successor's escaped `%`, flipping its escape parity: the first pass keeps the
escaped percent of `"B\\ %c\r\\%d\n"` but its output `"B\\\\%d\n"` has the
percent unescaped, so the second pass strips it and destroys the escaped
sequence. -/
theorem c6_counterexample :
    stripCommentsPreserveVerbatim (chars "B\\ %c\r\\%d\n") = chars "B\\\\%d\n" ∧
    stripCommentsPreserveVerbatim
        (stripCommentsPreserveVerbatim (chars "B\\ %c\r\\%d\n")) =
      chars "B\\\\\n" ∧
    stripCommentsPreserveVerbatim
        (stripCommentsPreserveVerbatim (chars "B\\ %c\r\\%d\n")) ≠
      stripCommentsPreserveVerbatim (chars "B\\ %c\r\\%d\n") := by decide

/-- C6 (amended): comment stripping is idempotent on every text whose line
breaks are all the plain `'\n'` terminator: applying
`strip_comments_preserve_verbatim` to its own output yields that output
unchanged, through any number of passes, escaped `%` sequences included.
For a text with another `splitlines` boundary (`'\r'` and the other break
characters), a comment cut drops that terminator and merges the line with its
successor, which can flip the escape parity of a later `%`, so a second pass
may strip text the first pass kept. -/
theorem c6_comment_strip_idempotent (text : List Char)
    (hnl : ∀ c ∈ text, pyIsLineBreak c = true → c = '\n') :
    stripCommentsPreserveVerbatim (stripCommentsPreserveVerbatim text) =
      stripCommentsPreserveVerbatim text ∧
    ∀ n : Nat, Nat.iterate stripCommentsPreserveVerbatim (n + 1) text =
      stripCommentsPreserveVerbatim text := by
  have hbase : stripCommentsPreserveVerbatim (stripCommentsPreserveVerbatim text) =
      stripCommentsPreserveVerbatim text := by
    rw [stripCommentsPreserveVerbatim, stripCommentsPreserveVerbatim]
    exact scpv_idem_aux text.length text text.length _ hnl le_rfl le_rfl le_rfl
  refine ⟨hbase, ?_⟩
  intro n
  induction n with
  | zero => rfl
  | succ n ihn =>
    rw [Function.iterate_succ_apply', ihn]
    exact hbase

theorem c6_comment_strip_idempotent_witness :
    stripCommentsPreserveVerbatim
        (stripCommentsPreserveVerbatim (chars "a \\% e %x\n  %w\nb %y\n")) =
      stripCommentsPreserveVerbatim (chars "a \\% e %x\n  %w\nb %y\n") :=
  (c6_comment_strip_idempotent (chars "a \\% e %x\n  %w\nb %y\n")
    (by decide)).1
